import Mathlib

/-!
Verification of the incremental generation-based backup script (src/backup.py)
against its natural-language specification.

The embedding is a shallow one over a POSIX-style filesystem model:

* paths and file names are lists of characters (the script manipulates plain
  strings; we use `List Char` so that structural reasoning is direct);
* the filesystem is an association list from absolute paths to `PyFile`
  records carrying the `os.stat` data that the script inspects (regular-file
  flag, modification time, byte content);
* `os.sep` is fixed to the POSIX separator; `str.isdigit` is modelled on the
  character range actually occurring in generation names (ASCII), where it
  coincides with being a decimal digit;
* floating point free-space arithmetic is modelled over `ℚ`.

Definitions are translated from src/backup.py (and from the Python standard
library functions it calls: `filecmp.cmp`, `shutil.copytree` with
`shutil.ignore_patterns`, `fnmatch.fnmatch`, `os.makedirs`, `posixpath.join`,
`posixpath.dirname`).
-/

namespace Backup

/-- POSIX path separator, the value of `os.sep` on the reference platform. -/
def sep : Char := '/'

/-- Stat data of one filesystem entry, as inspected by the script:
`filecmp.cmp` reads the `S_IFMT` type, `st_size` and `st_mtime` of both
files and, when needed, the byte content.  For regular files `st_size` is
the length of the content; directories carry `isReg := false`. -/
structure PyFile where
  isReg : Bool := true
  mtime : Int := 0
  content : List Nat := []
  deriving DecidableEq, Repr

/-- A filesystem: an association list mapping absolute paths to entries.
Later entries are shadowed by earlier ones (writes prepend). -/
abbrev FS := List (List Char × PyFile)

/-- Model of `os.path.exists`. -/
def pathExists (fs : FS) (p : List Char) : Bool :=
  fs.any (fun e => decide (e.1 = p))

/-- Lookup of a path's entry, `none` when the path does not exist. -/
def fsFind (fs : FS) (p : List Char) : Option PyFile :=
  (fs.find? (fun e => decide (e.1 = p))).map (fun e => e.2)

/-- Stat of a path, defaulting for absent paths (only used under the
hypothesis that the path exists). -/
def fsGet (fs : FS) (p : List Char) : PyFile :=
  (fsFind fs p).getD {}

/-- Entry used for directories created by `mkdir`/`makedirs`. -/
def dirEntry : PyFile := { isReg := false }

/-- Writing an entry (file copy or directory creation at a fresh path). -/
def putEntry (fs : FS) (p : List Char) (f : PyFile) : FS :=
  (p, f) :: fs

/-- Path Mapper of backup.py lines 21 and 122:
`src.replace(':', sep).lstrip(sep)` — every drive separator becomes a path
separator, then all leading separators are stripped. -/
def mapPath (p : List Char) : List Char :=
  (p.map (fun c => if c = ':' then sep else c)).dropWhile (fun c => decide (c = sep))

/-- Stat signature compared by `filecmp.cmp`:
`(S_IFMT(st_mode), st_size, st_mtime)`. -/
def sig (f : PyFile) : Bool × Nat × Int := (f.isReg, f.content.length, f.mtime)

/-- Model of `filecmp.cmp(f1, f2)` as called on backup.py line 25, i.e. with
the default `shallow=True`: both entries must be regular files; equal stat
signatures answer `True` without reading content; otherwise unequal sizes
answer `False` and equal sizes force a full byte comparison. -/
def filecmp_cmp (f1 f2 : PyFile) : Bool :=
  if !f1.isReg || !f2.isReg then false
  else if sig f1 = sig f2 then true
  else if f1.content.length ≠ f2.content.length then false
  else decide (f1.content = f2.content)

/-- The copy decision of the Copy Decision Engine. -/
inductive CopyDecision where
  | COPY
  | SKIP
  deriving DecidableEq, Repr

/-- Path probed inside one generation, backup.py line 21:
`f"{working_folder}{sep}{backup_name}{sep}{src.replace(':', sep).lstrip(sep)}"`. -/
def lookup_path (wf b src : List Char) : List Char :=
  wf ++ sep :: (b ++ sep :: mapPath src)

/-- File Identity Resolver, backup.py lines 19–24: walk `prev_backups` in
list order and return the probed path inside the first generation in which
it exists (the loop's `break`); `none` models the sentinel `''`. -/
def findPrev (fs : FS) (wf : List Char) (prev : List (List Char)) (src : List Char) :
    Option (List Char) :=
  (prev.find? (fun b => pathExists fs (lookup_path wf b src))).map
    (fun b => lookup_path wf b src)

/-- Copy Decision Engine, backup.py lines 17–29.  `srcFile` is the stat data
of `src` as read from the source filesystem.  The decision mirrors
`if not (prev_version_path and filecmp.cmp(src, prev_version_path)): copy
else: skip`. -/
def do_copy (fs : FS) (wf : List Char) (prev : List (List Char))
    (srcFile : PyFile) (src : List Char) : CopyDecision :=
  match findPrev fs wf prev src with
  | none => CopyDecision.COPY
  | some pv => if filecmp_cmp srcFile (fsGet fs pv) then CopyDecision.SKIP else CopyDecision.COPY

/-- Effect of one `do_copy` call on the destination filesystem: `shutil.copy2`
duplicates content and modification metadata on COPY, SKIP writes nothing. -/
def doCopyEff (fs : FS) (wf : List Char) (prev : List (List Char))
    (srcFile : PyFile) (dst : List Char) (src : List Char) : FS :=
  match do_copy fs wf prev srcFile src with
  | CopyDecision.COPY => putEntry fs dst srcFile
  | CopyDecision.SKIP => fs

/-- Characterization of the shallow `filecmp.cmp`: it answers `True` exactly
when both entries are regular files and either the stat signatures coincide
(shallow hit, content never read) or the byte contents coincide. -/
theorem filecmp_cmp_iff (f g : PyFile) :
    filecmp_cmp f g = true ↔
      (f.isReg = true ∧ g.isReg = true ∧ (sig f = sig g ∨ f.content = g.content)) := by
  unfold filecmp_cmp
  split_ifs with h1 h2 h3
  · simp only [Bool.or_eq_true, Bool.not_eq_true'] at h1
    constructor
    · intro h; exact absurd h (by simp)
    · rintro ⟨hf, hg, -⟩
      rcases h1 with h1 | h1 <;> simp_all
  · simp only [Bool.or_eq_true, Bool.not_eq_true'] at h1
    push_neg at h1
    simp [Bool.not_eq_false] at h1
    exact ⟨fun _ => ⟨h1.1, h1.2, Or.inl h2⟩, fun _ => rfl⟩
  · simp only [Bool.or_eq_true, Bool.not_eq_true'] at h1
    push_neg at h1
    simp [Bool.not_eq_false] at h1
    constructor
    · intro h; exact absurd h (by simp)
    · rintro ⟨-, -, hs | hc⟩
      · exact absurd hs h2
      · exact absurd (congrArg List.length hc) h3
  · simp only [Bool.or_eq_true, Bool.not_eq_true'] at h1
    push_neg at h1
    simp [Bool.not_eq_false] at h1
    simp only [decide_eq_true_eq]
    exact ⟨fun hc => ⟨h1.1, h1.2, Or.inr hc⟩,
           fun h => h.2.2.resolve_left h2⟩

/-! ### Claim C1 — the comparison backing SKIP -/

/-- Concrete scenario refuting C1 as stated: working folder `/w`, one prior
generation `20`, source `/data/a`. -/
def c1wf : List Char := [ '/', 'w']

/-- Generation name of the C1 scenario. -/
def c1gen : List Char := [ '2', '0']

/-- Source path of the C1 scenario. -/
def c1src : List Char := [ '/', 'd', 'a', 't', 'a', '/', 'a']

/-- Resolved prior path of the C1 scenario: `/w/20/data/a`. -/
def c1prior : List Char := [ '/', 'w', '/', '2', '0', '/', 'd', 'a', 't', 'a', '/', 'a']

/-- Stat of the source file in the C1 scenario: one byte `1`, mtime 5. -/
def c1srcFile : PyFile := { mtime := 5, content := [1] }

/-- Device filesystem of the C1 scenario: the prior generation holds a file
at the mapped path with one byte `2` — same size and mtime as the source,
different content. -/
def c1fs : FS := [(c1prior, { mtime := 5, content := [2] })]

/-- Claim C1 is false on the code: a prior version is resolved whose content
differs from the source in its (single) byte, while size and modification
time coincide — and `do_copy` decides SKIP, not COPY, because
`filecmp.cmp` is called with its default `shallow=True` and stops at the
equal stat signature without comparing content. -/
theorem c1_counterexample :
    findPrev c1fs c1wf [c1gen] c1src = some c1prior ∧
    c1srcFile.content ≠ (fsGet c1fs c1prior).content ∧
    c1srcFile.content.length = (fsGet c1fs c1prior).content.length ∧
    c1srcFile.mtime = (fsGet c1fs c1prior).mtime ∧
    do_copy c1fs c1wf [c1gen] c1srcFile c1src = CopyDecision.SKIP := by
  decide

/-- Amended C1: when a prior version is resolved, `do_copy` decides SKIP iff
both files are regular and either their stat signatures `(type, size,
mtime)` coincide — in which case content is never read — or their contents
are byte-for-byte identical.  In particular a file whose bytes differ from
the prior version is nevertheless skipped when size and mtime agree. -/
theorem do_copy_skip_iff (fs : FS) (wf : List Char) (prev : List (List Char))
    (srcFile : PyFile) (src : List Char) :
    do_copy fs wf prev srcFile src = CopyDecision.SKIP ↔
      ∃ pv, findPrev fs wf prev src = some pv ∧
        srcFile.isReg = true ∧ (fsGet fs pv).isReg = true ∧
        (sig srcFile = sig (fsGet fs pv) ∨ srcFile.content = (fsGet fs pv).content) := by
  unfold do_copy
  cases h : findPrev fs wf prev src with
  | none => simp
  | some pv =>
    simp only [Option.some.injEq]
    constructor
    · intro hd
      refine ⟨pv, rfl, ?_⟩
      by_cases hc : filecmp_cmp srcFile (fsGet fs pv) = true
      · exact (filecmp_cmp_iff _ _).mp hc
      · simp [Bool.not_eq_true] at hc
        rw [hc] at hd
        simp at hd
    · rintro ⟨pv', hpv', hrest⟩
      cases hpv'
      rw [(filecmp_cmp_iff _ _).mpr hrest]
      simp

/-! ### Claim C2 — most recent generation wins -/

/-- Claim C2: the resolver walks the generation list in order; when the
mapped path is absent from every generation before `b` and present in `b`,
it returns exactly `b`'s path — the loop breaks there — and the copy
decision is the same as if the generations older than `b` were absent:
they are never consulted, whatever their content. -/
theorem do_copy_most_recent_wins (fs : FS) (wf : List Char) (pre : List (List Char))
    (b : List Char) (rest : List (List Char)) (src : List Char)
    (hpre : ∀ g ∈ pre, pathExists fs (lookup_path wf g src) = false)
    (h : pathExists fs (lookup_path wf b src) = true) :
    findPrev fs wf (pre ++ b :: rest) src = some (lookup_path wf b src) ∧
    ∀ srcFile, do_copy fs wf (pre ++ b :: rest) srcFile src =
      do_copy fs wf (pre ++ [b]) srcFile src := by
  have hprenone : pre.find? (fun g => pathExists fs (lookup_path wf g src)) = none := by
    rw [List.find?_eq_none]
    intro g hg
    rw [hpre g hg]
    simp
  have hcons : ∀ tail, List.find? (fun g => pathExists fs (lookup_path wf g src)) (b :: tail) =
      some b := fun tail =>
    List.find?_cons_of_pos (p := fun g => pathExists fs (lookup_path wf g src)) tail h
  have hfind : findPrev fs wf (pre ++ b :: rest) src = some (lookup_path wf b src) := by
    unfold findPrev
    rw [List.find?_append, hprenone, Option.none_or, hcons rest]
    rfl
  have hfind1 : findPrev fs wf (pre ++ [b]) src = some (lookup_path wf b src) := by
    unfold findPrev
    rw [List.find?_append, hprenone, Option.none_or, hcons []]
    rfl
  refine ⟨hfind, fun srcFile => ?_⟩
  unfold do_copy
  rw [hfind, hfind1]

/-- Witness filesystem for C2: generations `20` (newest holding the path)
and `10` (older, holding the path with identical content); generation `30`
is the most recent but does not contain the path. -/
def c2fs : FS :=
  [([ '/', 'w', '/', '2', '0', '/', 'a'], { content := [7] }),
   ([ '/', 'w', '/', '1', '0', '/', 'a'], { content := [7] })]

/-- Closed witness instantiating `do_copy_most_recent_wins` on `c2fs`: the
chain `30, 20, 10` resolves to generation `20` and the decision ignores
generation `10`. -/
theorem do_copy_most_recent_wins_witness :
    findPrev c2fs [ '/', 'w'] [[ '3', '0'], [ '2', '0'], [ '1', '0']] [ '/', 'a'] =
      some [ '/', 'w', '/', '2', '0', '/', 'a'] ∧
    ∀ srcFile,
      do_copy c2fs [ '/', 'w'] [[ '3', '0'], [ '2', '0'], [ '1', '0']] srcFile [ '/', 'a'] =
      do_copy c2fs [ '/', 'w'] [[ '3', '0'], [ '2', '0']] srcFile [ '/', 'a'] :=
  do_copy_most_recent_wins c2fs [ '/', 'w'] [[ '3', '0']] [ '2', '0'] [[ '1', '0']] [ '/', 'a']
    (by decide) (by decide)

/-! ### Claim C8 — the path mapper -/

/-- On a colon-free path the mapper only strips leading separators. -/
theorem mapPath_no_colon (p : List Char) (hp : ':' ∉ p) :
    mapPath p = p.dropWhile (fun c => decide (c = sep)) := by
  unfold mapPath
  congr 1
  have : ∀ c ∈ p, (if c = ':' then sep else c) = c := by
    intro c hc
    have : ¬ c = ':' := fun h => hp (h ▸ hc)
    simp [this]
  calc p.map (fun c => if c = ':' then sep else c) = p.map id := List.map_congr_left this
    _ = p := List.map_id p

/-- On a colon-free path with a single leading separator the mapper just
drops that separator. -/
theorem mapPath_single_sep (p' : List Char) (h : ':' ∉ sep :: p')
    (h2 : p'.head? ≠ some sep) : mapPath (sep :: p') = p' := by
  rw [mapPath_no_colon _ h]
  rw [List.dropWhile_cons]
  simp only [decide_eq_true_eq, if_pos rfl]
  cases p' with
  | nil => simp
  | cons c r =>
    have hc : ¬ c = sep := by
      intro hcs
      exact h2 (by simp [hcs])
    rw [List.dropWhile_cons]
    simp [hc]

/-- Concrete collision refuting the injectivity half of C8: the distinct
absolute paths `/a:b` (a file named `a:b` in the root directory) and
`/a/b` (a file `b` inside directory `a`) denote different locations on a
POSIX filesystem, yet both map to the relative path `a/b` because the
mapper rewrites every `':'` into the separator. -/
theorem c8_counterexample :
    mapPath [ '/', 'a', ':', 'b'] = mapPath [ '/', 'a', '/', 'b'] ∧
    ([ '/', 'a', ':', 'b'] : List Char) ≠ [ '/', 'a', '/', 'b'] := by
  decide

/-- Amended C8: the mapper is a pure function (repeated application to the
same path always yields the same relative path), and it is injective on
absolute paths that contain no `':'` and start with a single leading
separator; distinct paths may collide only when one of them contains a
`':'` (rewritten into the separator) or extra leading separators. -/
theorem mapPath_pure_and_injective (p q : List Char)
    (hp : ':' ∉ p) (hq : ':' ∉ q)
    (hp1 : p.head? = some sep) (hp2 : p.tail.head? ≠ some sep)
    (hq1 : q.head? = some sep) (hq2 : q.tail.head? ≠ some sep) :
    mapPath p = mapPath p ∧ (mapPath p = mapPath q → p = q) := by
  refine ⟨rfl, ?_⟩
  cases p with
  | nil => simp at hp1
  | cons a p' =>
    cases q with
    | nil => simp at hq1
    | cons b q' =>
      have ha : a = sep := by simpa using hp1
      have hb : b = sep := by simpa using hq1
      subst ha; subst hb
      rw [mapPath_single_sep p' hp (by simpa using hp2),
          mapPath_single_sep q' hq (by simpa using hq2)]
      intro h
      rw [h]

/-- Closed witness instantiating `mapPath_pure_and_injective` at the
distinct colon-free absolute paths `/a` and `/b`. -/
theorem mapPath_pure_and_injective_witness :
    mapPath [ '/', 'a'] = mapPath [ '/', 'a'] ∧
    (mapPath [ '/', 'a'] = mapPath [ '/', 'b'] → [ '/', 'a'] = [ '/', 'b']) :=
  mapPath_pure_and_injective [ '/', 'a'] [ '/', 'b']
    (by decide) (by decide) (by decide) (by decide) (by decide) (by decide)

/-! ### Generation Index: listdir, digit filter, descending sort -/

/-- Boolean list-prefix test (used to recognise the immediate children of a
directory in the flat filesystem model). -/
def isPre : List Char → List Char → Bool
  | [], _ => true
  | _ :: _, [] => false
  | a :: as, b :: bs => decide (a = b) && isPre as bs

theorem isPre_iff (l p : List Char) : isPre l p = true ↔ l <+: p := by
  induction l generalizing p with
  | nil => simp [isPre]
  | cons a as ih =>
    cases p with
    | nil => simp [isPre]
    | cons b bs =>
      simp only [isPre, Bool.and_eq_true, decide_eq_true_eq, ih, List.cons_prefix_cons]

/-- Name of `p` as an immediate child of directory `d`: `some n` when
`p = d ++ sep :: n` with `n` a nonempty separator-free name. -/
def childName (d p : List Char) : Option (List Char) :=
  if isPre (d ++ [sep]) p then
    let n := p.drop (d.length + 1)
    if n.isEmpty || n.any (fun c => decide (c = sep)) then none else some n
  else none

theorem childName_eq_some (d p n : List Char) :
    childName d p = some n ↔ p = d ++ sep :: n ∧ n ≠ [] ∧ sep ∉ n := by
  unfold childName
  split_ifs with hpre
  · rw [isPre_iff] at hpre
    obtain ⟨t, ht⟩ := hpre
    have hdrop : p.drop (d.length + 1) = t := by
      rw [← ht]
      have : d.length + 1 = (d ++ [sep]).length := by simp
      rw [this, List.drop_left]
    simp only [hdrop]
    split_ifs with hbad
    · simp only [Bool.or_eq_true, List.isEmpty_iff, List.any_eq_true,
        decide_eq_true_eq] at hbad
      constructor
      · intro h; exact absurd h (by simp)
      · rintro ⟨hp, hne, hns⟩
        have : t = n := by
          have h2 := ht.trans hp
          simpa using h2
        subst this
        rcases hbad with h | ⟨c, hc, hcs⟩
        · exact absurd h hne
        · exact absurd (hcs ▸ hc) hns
    · simp only [Bool.or_eq_true, List.isEmpty_iff, List.any_eq_true,
        decide_eq_true_eq] at hbad
      push_neg at hbad
      constructor
      · rintro ⟨rfl⟩
        refine ⟨?_, hbad.1, ?_⟩
        · rw [← ht]; simp
        · intro hs; exact hbad.2 sep hs rfl
      · rintro ⟨hp, -, -⟩
        have : t = n := by
          have h2 := ht.trans hp
          simpa using h2
        simp [this]
  · constructor
    · intro h; exact absurd h (by simp)
    · rintro ⟨hp, -, -⟩
      exact absurd (isPre_iff _ _ |>.mpr ⟨n, by simp [hp]⟩) hpre

/-- Model of `os.listdir`: the names of the immediate children of `d`
present in the filesystem (each name once). -/
def listdirFS (fs : FS) (d : List Char) : List (List Char) :=
  ((fs.map Prod.fst).filterMap (childName d)).dedup

theorem mem_listdirFS (fs : FS) (d n : List Char) :
    n ∈ listdirFS fs d ↔
      pathExists fs (d ++ sep :: n) = true ∧ n ≠ [] ∧ sep ∉ n := by
  unfold listdirFS pathExists
  rw [List.mem_dedup, List.mem_filterMap]
  simp only [List.any_eq_true, decide_eq_true_eq, List.mem_map]
  constructor
  · rintro ⟨p, ⟨e, he, rfl⟩, hcn⟩
    obtain ⟨hp, hne, hns⟩ := (childName_eq_some _ _ _).mp hcn
    exact ⟨⟨e, he, hp.symm ▸ rfl⟩, hne, hns⟩
  · rintro ⟨⟨e, he, hp⟩, hne, hns⟩
    exact ⟨e.1, ⟨e, he, rfl⟩, (childName_eq_some _ _ _).mpr ⟨hp, hne, hns⟩⟩

/-- Model of Python's `str.isdigit` on one character.  The script only meets
ASCII generation names (decimal date stamps), on which `str.isdigit`
coincides with being a decimal digit. -/
def pyIsDigitChar (c : Char) : Bool := c.isDigit

/-- Model of Python's `str.isdigit`: nonempty and all characters digits. -/
def pyStrIsDigit (l : List Char) : Bool := !l.isEmpty && l.all pyIsDigitChar

/-- Model of Python's `str.split(sep)`. -/
def splitSep : List Char → List (List Char)
  | [] => [[]]
  | c :: rest =>
    if c = sep then [] :: splitSep rest
    else
      match splitSep rest with
      | [] => [[c]]
      | g :: gs => (c :: g) :: gs

/-- Model of `d.split(sep)[-1]`. -/
def lastComp (d : List Char) : List Char := (splitSep d).getLastD []

theorem splitSep_no_sep (d : List Char) (h : sep ∉ d) : splitSep d = [d] := by
  induction d with
  | nil => rfl
  | cons c rest ih =>
    have hc : ¬ c = sep := fun hcs => h (by simp [hcs])
    have hrest : sep ∉ rest := fun hs => h (List.mem_cons_of_mem _ hs)
    unfold splitSep
    simp [hc, ih hrest]

theorem lastComp_no_sep (d : List Char) (h : sep ∉ d) : lastComp d = d := by
  unfold lastComp
  rw [splitSep_no_sep d h]
  rfl

/-- Lexicographic (code-point) order on names, Python's string `<=`. -/
def strLe : List Char → List Char → Bool
  | [], _ => true
  | _ :: _, [] => false
  | a :: as, b :: bs => if a = b then strLe as bs else decide (a < b)

theorem strLe_total (a b : List Char) : strLe a b = true ∨ strLe b a = true := by
  induction a generalizing b with
  | nil => left; rfl
  | cons x as ih =>
    cases b with
    | nil => right; rfl
    | cons y bs =>
      by_cases hxy : x = y
      · subst hxy
        simpa [strLe] using ih bs
      · rcases lt_or_gt_of_ne hxy with h | h
        · left; simp [strLe, hxy, h]
        · right
          have hyx : ¬ y = x := fun he => hxy he.symm
          simp [strLe, hyx, h]

theorem strLe_trans (a b c : List Char) (hab : strLe a b = true) (hbc : strLe b c = true) :
    strLe a c = true := by
  induction a generalizing b c with
  | nil => rfl
  | cons x as ih =>
    cases b with
    | nil => simp [strLe] at hab
    | cons y bs =>
      cases c with
      | nil => simp [strLe] at hbc
      | cons z cs =>
        by_cases hxy : x = y <;> by_cases hyz : y = z
        · subst hxy; subst hyz
          simp only [strLe, if_pos rfl] at hab hbc ⊢
          exact ih bs cs hab hbc
        · subst hxy
          simp only [strLe, if_pos rfl] at hab
          simp only [strLe, if_neg hyz, decide_eq_true_eq] at hbc
          simp [strLe, hyz, hbc]
        · subst hyz
          simp only [strLe, if_neg hxy, decide_eq_true_eq] at hab
          simp [strLe, hxy, hab]
        · simp only [strLe, if_neg hxy, decide_eq_true_eq] at hab
          simp only [strLe, if_neg hyz, decide_eq_true_eq] at hbc
          have hxz : x < z := lt_trans hab hbc
          have : ¬ x = z := ne_of_lt hxz
          simp [strLe, this, hxz]

/-- Insertion into a descending list (used to model `sorted(reverse=True)`). -/
def insertGe (a : List Char) : List (List Char) → List (List Char)
  | [] => [a]
  | b :: bs => if strLe b a then a :: b :: bs else b :: insertGe a bs

/-- Model of `sorted(names, reverse=True)`: descending lexicographic sort. -/
def sortDesc : List (List Char) → List (List Char)
  | [] => []
  | a :: as => insertGe a (sortDesc as)

theorem mem_insertGe (x a : List Char) (l : List (List Char)) :
    x ∈ insertGe a l ↔ x = a ∨ x ∈ l := by
  induction l with
  | nil => simp [insertGe]
  | cons b bs ih =>
    unfold insertGe
    split_ifs with hba
    · simp
    · simp only [List.mem_cons, ih]
      tauto

theorem mem_sortDesc (x : List Char) (l : List (List Char)) :
    x ∈ sortDesc l ↔ x ∈ l := by
  induction l with
  | nil => simp [sortDesc]
  | cons a as ih =>
    unfold sortDesc
    rw [mem_insertGe, ih]
    simp

theorem pairwise_insertGe (a : List Char) (l : List (List Char))
    (h : l.Pairwise (fun x y => strLe y x = true)) :
    (insertGe a l).Pairwise (fun x y => strLe y x = true) := by
  induction l with
  | nil => simp [insertGe]
  | cons b bs ih =>
    rw [List.pairwise_cons] at h
    obtain ⟨hb, hbs⟩ := h
    unfold insertGe
    split_ifs with hba
    · refine List.Pairwise.cons ?_ (List.Pairwise.cons hb hbs)
      intro y hy
      rcases List.mem_cons.mp hy with rfl | hy'
      · exact hba
      · exact strLe_trans y b a (hb y hy') hba
    · refine List.Pairwise.cons ?_ (ih hbs)
      intro y hy
      rcases (mem_insertGe y a bs).mp hy with rfl | hy'
      · exact (strLe_total b y).resolve_left (by simpa using hba)
      · exact hb y hy'

theorem pairwise_sortDesc (l : List (List Char)) :
    (sortDesc l).Pairwise (fun x y => strLe y x = true) := by
  induction l with
  | nil => simp [sortDesc]
  | cons a as ih => exact pairwise_insertGe a (sortDesc as) ih

/-- Generation Index, backup.py line 107:
`sorted([d for d in listdir(working_folder) if d.split(sep)[-1].isdigit()],
reverse=True)`. -/
def prev_backups (fs : FS) (wf : List Char) : List (List Char) :=
  sortDesc ((listdirFS fs wf).filter (fun d => pyStrIsDigit (lastComp d)))

/-- Name of the log subfolder the working folder always contains. -/
def logsName : List Char := [ 'l', 'o', 'g', 's']

/-! ### Claim C3 — empty generation index -/

/-- Claim C3: with an empty generation index, `do_copy` decides COPY for
every file it is invoked on — the loop finds no prior version and the
sentinel stays empty, so the first backup copies everything.  A working
folder without prior digit-named snapshot folders produces exactly this
empty index, a valid state rather than an error. -/
theorem do_copy_empty_index :
    (∀ (fs : FS) (wf : List Char) (srcFile : PyFile) (src : List Char),
      do_copy fs wf [] srcFile src = CopyDecision.COPY) ∧
    (∀ (fs : FS) (wf : List Char), listdirFS fs wf = [] → prev_backups fs wf = []) := by
  constructor
  · intro fs wf srcFile src
    rfl
  · intro fs wf h
    unfold prev_backups
    rw [h]
    rfl

/-- Closed witness instantiating `do_copy_empty_index` on an empty
filesystem. -/
theorem do_copy_empty_index_witness :
    do_copy [] [ '/', 'w'] [] {} [ '/', 'a'] = CopyDecision.COPY ∧
    prev_backups [] [ '/', 'w'] = [] :=
  ⟨do_copy_empty_index.1 [] [ '/', 'w'] {} [ '/', 'a'],
   do_copy_empty_index.2 [] [ '/', 'w'] (by decide)⟩


/-! ### Claim C7 — content of the generation index -/

/-- Claim C7: the generation index holds exactly the entries of the working
folder whose names consist solely of decimal digits, it is pairwise
descending in name order, and in particular the `logs` subfolder is never
among the generations. -/
theorem prev_backups_spec (fs : FS) (wf : List Char) :
    (∀ b, b ∈ prev_backups fs wf ↔ (b ∈ listdirFS fs wf ∧ pyStrIsDigit b = true)) ∧
    (prev_backups fs wf).Pairwise (fun a b => strLe b a = true) ∧
    logsName ∉ prev_backups fs wf := by
  have hmem : ∀ b, b ∈ prev_backups fs wf ↔ (b ∈ listdirFS fs wf ∧ pyStrIsDigit b = true) := by
    intro b
    unfold prev_backups
    rw [mem_sortDesc, List.mem_filter]
    constructor
    · rintro ⟨hl, hd⟩
      have hns : sep ∉ b := ((mem_listdirFS fs wf b).mp hl).2.2
      rw [lastComp_no_sep b hns] at hd
      exact ⟨hl, hd⟩
    · rintro ⟨hl, hd⟩
      have hns : sep ∉ b := ((mem_listdirFS fs wf b).mp hl).2.2
      rw [lastComp_no_sep b hns]
      exact ⟨hl, hd⟩
  refine ⟨hmem, pairwise_sortDesc _, ?_⟩
  intro hlogs
  have := ((hmem logsName).mp hlogs).2
  simp [pyStrIsDigit, logsName, pyIsDigitChar] at this

/-! ### Directory creation: `os.mkdir` / `os.makedirs` -/

/-- Creation of a single directory when absent (`os.makedirs` with
`exist_ok` never overwrites an existing entry). -/
def addDirIfMissing (fs : FS) (p : List Char) : FS :=
  if pathExists fs p then fs else putEntry fs p dirEntry

/-- Paths created by `os.makedirs p`: every proper prefix of `p` that ends
just before a separator, and `p` itself, shallow first. -/
def ancestors (p : List Char) : List (List Char) :=
  ((List.range p.length).filterMap fun i =>
    if 0 < i ∧ p[i]? = some sep then some (p.take i) else none) ++ [p]

/-- Model of `os.makedirs(p, exist_ok=True)`: create every missing ancestor
of `p`, then `p` itself. -/
def makedirsFS (fs : FS) (p : List Char) : FS :=
  (ancestors p).foldl addDirIfMissing fs

/-- Relation satisfied by every path `os.makedirs p` may create: either `p`
itself or a prefix of `p` cut just before a separator. -/
def sepCut (p q : List Char) : Prop :=
  q = p ∨ ∃ i, 0 < i ∧ p[i]? = some sep ∧ q = p.take i

theorem sepCut_self (p : List Char) : sepCut p p := Or.inl rfl

theorem mem_ancestors_sepCut (p q : List Char) (h : q ∈ ancestors p) : sepCut p q := by
  unfold ancestors at h
  rcases List.mem_append.mp h with h | h
  · rw [List.mem_filterMap] at h
    obtain ⟨i, -, hi⟩ := h
    right
    split_ifs at hi with hc
    exact ⟨i, hc.1, hc.2, (Option.some.injEq _ _).mp hi |>.symm⟩
  · left; simpa using h

theorem self_mem_ancestors (p : List Char) : p ∈ ancestors p := by
  unfold ancestors
  simp

theorem sepCut_length (p q : List Char) (h : sepCut p q) : q = p ∨ q.length < p.length := by
  rcases h with rfl | ⟨i, -, hi, rfl⟩
  · exact Or.inl rfl
  · right
    have hilt : i < p.length := by
      by_contra hge
      rw [List.getElem?_eq_none (by omega)] at hi
      exact Option.noConfusion hi
    rw [List.length_take]
    omega

/-! ### Basic lemmas about existence and lookup under the operations -/

theorem pathExists_putEntry (fs : FS) (p q : List Char) (f : PyFile) :
    pathExists (putEntry fs p f) q = true ↔ q = p ∨ pathExists fs q = true := by
  unfold putEntry pathExists
  rw [List.any_cons]
  simp only [Bool.or_eq_true, decide_eq_true_eq]
  constructor
  · rintro (h | h)
    · exact Or.inl h.symm
    · exact Or.inr h
  · rintro (h | h)
    · exact Or.inl h.symm
    · exact Or.inr h

theorem pathExists_addDir (fs : FS) (p q : List Char) :
    pathExists (addDirIfMissing fs p) q = true ↔ q = p ∨ pathExists fs q = true := by
  unfold addDirIfMissing
  split_ifs with h
  · constructor
    · exact Or.inr
    · rintro (rfl | hq)
      · exact h
      · exact hq
  · exact pathExists_putEntry fs p q dirEntry

theorem pathExists_foldl_addDir (l : List (List Char)) (fs : FS) (q : List Char) :
    pathExists (l.foldl addDirIfMissing fs) q = true ↔ q ∈ l ∨ pathExists fs q = true := by
  induction l generalizing fs with
  | nil => simp
  | cons a as ih =>
    rw [List.foldl_cons, ih, pathExists_addDir]
    simp only [List.mem_cons]
    tauto

theorem pathExists_makedirs (fs : FS) (p q : List Char) :
    pathExists (makedirsFS fs p) q = true ↔ q ∈ ancestors p ∨ pathExists fs q = true :=
  pathExists_foldl_addDir (ancestors p) fs q

theorem fsFind_putEntry_ne (fs : FS) (p q : List Char) (f : PyFile) (h : q ≠ p) :
    fsFind (putEntry fs p f) q = fsFind fs q := by
  unfold putEntry fsFind
  have hne : (decide (((p, f) : List Char × PyFile).1 = q)) = false := by
    simp only [decide_eq_false_iff_not]
    exact fun he => h he.symm
  rw [List.find?_cons, hne]

theorem fsFind_addDir_ne (fs : FS) (p q : List Char) (h : q ≠ p) :
    fsFind (addDirIfMissing fs p) q = fsFind fs q := by
  unfold addDirIfMissing
  split_ifs with hex
  · rfl
  · exact fsFind_putEntry_ne fs p q dirEntry h

theorem fsFind_foldl_addDir_ne (l : List (List Char)) (fs : FS) (q : List Char)
    (h : q ∉ l) : fsFind (l.foldl addDirIfMissing fs) q = fsFind fs q := by
  induction l generalizing fs with
  | nil => rfl
  | cons a as ih =>
    rw [List.foldl_cons, ih _ (fun hm => h (List.mem_cons_of_mem _ hm)),
        fsFind_addDir_ne fs a q (fun he => h (he ▸ List.mem_cons_self a as))]

theorem fsFind_makedirs_ne (fs : FS) (p q : List Char) (h : q ∉ ancestors p) :
    fsFind (makedirsFS fs p) q = fsFind fs q :=
  fsFind_foldl_addDir_ne (ancestors p) fs q h

/-! ### Structure lemmas about separator cuts -/

theorem sepCut_trans (p q r : List Char) (hpq : sepCut p q) (hqr : sepCut q r) :
    sepCut p r := by
  rcases hpq with rfl | ⟨i, hi0, hi, rfl⟩
  · exact hqr
  · rcases hqr with rfl | ⟨j, hj0, hj, rfl⟩
    · exact Or.inr ⟨i, hi0, hi, rfl⟩
    · rw [List.getElem?_take] at hj
      by_cases hji : j < i
      · rw [if_pos hji] at hj
        right
        refine ⟨j, hj0, hj, ?_⟩
        rw [List.take_take]
        congr 1
        omega
      · rw [if_neg hji] at hj
        exact Option.noConfusion hj

theorem sepCut_sepFree (w t q : List Char) (ht : sep ∉ t)
    (h : sepCut (w ++ sep :: t) q) : sepCut w q ∨ q = w ++ sep :: t := by
  rcases h with rfl | ⟨i, hi0, hi, rfl⟩
  · exact Or.inr rfl
  · rcases lt_trichotomy i w.length with hlt | heq | hgt
    · left; right
      refine ⟨i, hi0, ?_, ?_⟩
      · rwa [List.getElem?_append_left hlt] at hi
      · rw [List.take_append_eq_append_take]
        simp [Nat.sub_eq_zero_of_le (le_of_lt hlt)]
    · left; left
      rw [List.take_append_eq_append_take]
      simp [heq]
    · exfalso
      rw [List.getElem?_append_right (by omega)] at hi
      have : i - w.length = (i - w.length - 1) + 1 := by omega
      rw [this] at hi
      simp only [List.getElem?_cons_succ] at hi
      exact ht (List.getElem?_mem hi)

theorem sepCut_deep (w t₁ t₂ q : List Char) (ht : sep ∉ t₁)
    (h : sepCut (w ++ sep :: (t₁ ++ sep :: t₂)) q) :
    sepCut w q ∨ q = w ++ sep :: t₁ ∨ ((w ++ sep :: t₁) ++ [sep]) <+: q := by
  rcases h with rfl | ⟨i, hi0, hi, rfl⟩
  · right; right
    refine ⟨t₂, ?_⟩
    simp
  · rcases lt_trichotomy i w.length with hlt | heq | hgt
    · left; right
      refine ⟨i, hi0, ?_, ?_⟩
      · rwa [List.getElem?_append_left hlt] at hi
      · rw [List.take_append_eq_append_take]
        simp [Nat.sub_eq_zero_of_le (le_of_lt hlt)]
    · left; left
      rw [List.take_append_eq_append_take]
      simp [heq]
    · -- the cut lies beyond `w ++ [sep]`
      have hi' := hi
      rw [List.getElem?_append_right (by omega)] at hi'
      have hstep : i - w.length = (i - w.length - 1) + 1 := by omega
      rw [hstep, List.getElem?_cons_succ] at hi'
      set k := i - w.length - 1 with hk
      rcases lt_trichotomy k t₁.length with hklt | hkeq | hkgt
      · exfalso
        rw [List.getElem?_append_left hklt] at hi'
        exact ht (List.getElem?_mem hi')
      · right; left
        have hieq : i = w.length + 1 + t₁.length := by omega
        rw [hieq, List.take_append_eq_append_take,
            List.take_of_length_le (by omega : w.length ≤ w.length + 1 + t₁.length)]
        congr 1
        have h2 : w.length + 1 + t₁.length - w.length = t₁.length + 1 := by omega
        rw [h2, List.take_succ_cons, List.take_append_eq_append_take,
            List.take_of_length_le (le_refl t₁.length), Nat.sub_self]
        simp
      · right; right
        have hsplit : w ++ sep :: (t₁ ++ sep :: t₂) =
            ((w ++ sep :: t₁) ++ [sep]) ++ t₂ := by simp
        rw [hsplit, List.take_append_eq_append_take,
            List.take_of_length_le (l := (w ++ sep :: t₁) ++ [sep])
              (by simp only [List.length_append, List.length_cons, List.length_nil]; omega)]
        exact ⟨_, rfl⟩

/-! ### `posixpath.join` and `posixpath.dirname` -/

/-- Model of `posixpath.join(a, b)` for two components. -/
def pathJoin (a b : List Char) : List Char :=
  if b.head? = some sep then b
  else if a.isEmpty || a.getLast? = some sep then a ++ b
  else a ++ sep :: b

theorem pathJoin_normal (a b : List Char) (hb : b.head? ≠ some sep)
    (ha : a ≠ []) (ha2 : a.getLast? ≠ some sep) :
    pathJoin a b = a ++ sep :: b := by
  unfold pathJoin
  rw [if_neg hb, if_neg]
  simp [ha, ha2]

theorem dropWhile_suffix (f : Char → Bool) (l : List Char) : l.dropWhile f <:+ l := by
  induction l with
  | nil => exact List.suffix_refl []
  | cons a as ih =>
    rw [List.dropWhile_cons]
    split_ifs with h
    · exact ih.trans (List.suffix_cons a as)
    · exact List.suffix_refl _

theorem dropWhile_head_false (f : Char → Bool) (l : List Char) (c : Char) (cs : List Char)
    (h : l.dropWhile f = c :: cs) : f c = false := by
  induction l with
  | nil => exact absurd h (by simp)
  | cons a as ih =>
    rw [List.dropWhile_cons] at h
    split_ifs at h with hf
    · exact ih h
    · cases h
      simpa using hf

/-- Trailing-separator strip, the `head.rstrip(sep)` of `posixpath.split`. -/
def rstripSep (p : List Char) : List Char :=
  (p.reverse.dropWhile (fun c => decide (c = sep))).reverse

/-- Everything up to and including the last separator of `p` (empty when `p`
has no separator), the raw head of `posixpath.split`. -/
def headPart (p : List Char) : List Char :=
  (p.reverse.dropWhile (fun c => !decide (c = sep))).reverse

/-- Model of `posixpath.dirname(p)`: the raw head with trailing separators
stripped unless it consists solely of separators. -/
def dirnameP (p : List Char) : List Char :=
  if (headPart p).all (fun c => decide (c = sep)) then headPart p
  else rstripSep (headPart p)

theorem headPart_pre (p : List Char) : headPart p <+: p := by
  unfold headPart
  have h1 := dropWhile_suffix (fun c => !decide (c = sep)) p.reverse
  have h2 := List.reverse_prefix.mpr h1
  simpa using h2

theorem rstripSep_pre (p : List Char) : rstripSep p <+: p := by
  unfold rstripSep
  have h1 := dropWhile_suffix (fun c => decide (c = sep)) p.reverse
  have h2 := List.reverse_prefix.mpr h1
  simpa using h2

theorem dirnameP_pre (p : List Char) : dirnameP p <+: p := by
  unfold dirnameP
  split_ifs with h
  · exact headPart_pre p
  · exact (rstripSep_pre (headPart p)).trans (headPart_pre p)

theorem dirnameP_spec (p : List Char) :
    dirnameP p = [] ∨ (∀ c ∈ dirnameP p, c = sep) ∨
      (0 < (dirnameP p).length ∧ p[(dirnameP p).length]? = some sep) := by
  unfold dirnameP
  split_ifs with hall
  · -- head consists solely of separators (possibly empty)
    right; left
    intro c hc
    simpa using List.all_eq_true.mp hall c hc
  · -- head is nonempty, ends in a separator and has a non-separator char
    right; right
    set E := p.reverse.dropWhile (fun c => !decide (c = sep)) with hE
    have hhpE : (headPart p).reverse = E := by
      unfold headPart
      rw [List.reverse_reverse]
    have hhpr : headPart p = E.reverse := by
      rw [← hhpE, List.reverse_reverse]
    have hEne : E ≠ [] := by
      intro hnil
      exact hall (by simp [hhpr, hnil])
    set T := E.takeWhile (fun c => decide (c = sep)) with hT
    set D := E.dropWhile (fun c => decide (c = sep)) with hD
    have hTD : T ++ D = E := List.takeWhile_append_dropWhile _ _
    have hA : rstripSep (headPart p) = D.reverse := by
      unfold rstripSep
      rw [hhpE, ← hD]
    have hTne : T ≠ [] := by
      obtain ⟨c, cs, hcs⟩ := List.exists_cons_of_ne_nil hEne
      have hdw : p.reverse.dropWhile (fun c => !decide (c = sep)) = c :: cs := by
        rw [← hE]; exact hcs
      have hcsep : c = sep := by
        have := dropWhile_head_false _ _ _ _ hdw
        simpa using this
      rw [hT, hcs]
      simp [List.takeWhile_cons, hcsep]
    have hDne : D ≠ [] := by
      intro hnil
      apply hall
      rw [List.all_eq_true]
      intro c hc
      have hcE : c ∈ E := by
        rw [hhpr] at hc
        simpa using hc
      have hcT : c ∈ T := by
        rw [← hTD, hnil] at hcE
        simpa using hcE
      have hcT' : c ∈ E.takeWhile (fun c => decide (c = sep)) := by
        rw [← hT]; exact hcT
      exact List.mem_takeWhile_imp (p := fun c => decide (c = sep)) hcT'
    have hhp2 : headPart p = D.reverse ++ T.reverse := by
      rw [hhpr, ← hTD]
      simp [List.reverse_append]
    obtain ⟨rest, hrest⟩ := headPart_pre p
    have hp2 : p = D.reverse ++ (T.reverse ++ rest) := by
      rw [← hrest, hhp2]
      simp
    constructor
    · rw [hA]
      simpa using List.length_pos.mpr hDne
    · rw [hA]
      conv_lhs => rw [hp2]
      rw [List.getElem?_append_right (le_refl _)]
      simp only [Nat.sub_self]
      have hTrne : T.reverse ≠ [] := by simpa using hTne
      obtain ⟨c, cs, hcs⟩ := List.exists_cons_of_ne_nil hTrne
      have hcsep : c = sep := by
        have hcT : c ∈ T := by
          have : c ∈ T.reverse := by rw [hcs]; simp
          simpa using this
        have hcT2 : c ∈ E.takeWhile (fun c => decide (c = sep)) := by
          rw [← hT]; exact hcT
        exact of_decide_eq_true (List.mem_takeWhile_imp (p := fun c => decide (c = sep)) hcT2)
      rw [hcs]
      simp [hcsep]

/-! ### Ignore Filter: `fnmatch`-style glob matching -/

/-- Membership of a character in the body of a bracket class: literal
characters and `a-b` ranges, a trailing `-` being literal
(`fnmatch`'s translation of `[...]`). -/
def inClass (c : Char) : List Char → Bool
  | a :: '-' :: b :: rest => (decide (a ≤ c) && decide (c ≤ b)) || inClass c rest
  | a :: rest => decide (a = c) || inClass c rest
  | [] => false

/-- Scan to the closing `]` of a bracket class, returning the body and the
remaining pattern. -/
def findClose : List Char → Option (List Char × List Char)
  | [] => none
  | ']' :: rest => some ([], rest)
  | c :: rest => (findClose rest).map (fun r => (c :: r.1, r.2))

/-- Parse the part of a pattern following `[`: an optional `!` negation,
then a body in which a leading `]` is literal; `none` when no closing `]`
exists (the `[` is then matched literally, as `fnmatch` does). -/
def parseClass (l : List Char) : Option (Bool × List Char × List Char) :=
  match l with
  | '!' :: rest =>
    match rest with
    | ']' :: rest2 => (findClose rest2).map (fun r => (true, ']' :: r.1, r.2))
    | _ => (findClose rest).map (fun r => (true, r.1, r.2))
  | ']' :: rest2 => (findClose rest2).map (fun r => (false, ']' :: r.1, r.2))
  | _ => (findClose l).map (fun r => (false, r.1, r.2))

/-- Model of `fnmatch.fnmatch(s, p)` on POSIX (where `normcase` is the
identity): `*` matches any run, `?` any character, `[...]`/`[!...]`
character classes, everything else literally. -/
def globMatch : List Char → List Char → Bool
  | [], [] => true
  | [], _ :: _ => false
  | '*' :: p', [] => globMatch p' []
  | '*' :: p', c :: s' => globMatch p' (c :: s') || globMatch ('*' :: p') s'
  | '?' :: _, [] => false
  | '?' :: p', _ :: s' => globMatch p' s'
  | '[' :: p', [] => false
  | '[' :: p', c :: s' =>
    match parseClass p' with
    | none => decide (c = '[') && globMatch p' s'
    | some (neg, cls, rest) =>
      (if neg then !(inClass c cls) else inClass c cls) && globMatch rest s'
  | a :: p', [] => false
  | a :: p', c :: s' => decide (a = c) && globMatch p' s'
  termination_by p s => (s.length, p.length)

/-- Model of the callable produced by `shutil.ignore_patterns(*patterns)`:
an entry name is ignored when it matches any of the patterns. -/
def matchesIgnore (pats : List (List Char)) (n : List Char) : Bool :=
  pats.any (fun pat => globMatch pat n)

/-! ### Source trees and the Tree Copier -/

/-- One source tree as found on the source filesystem: a regular file with
its stat data, or a directory listing of named children. -/
inductive FSTree where
  | file (f : PyFile)
  | dir (children : List (List Char × FSTree))

mutual

/-- Model of `shutil.copytree(src, dst, ignore=shutil.ignore_patterns(*pats),
copy_function=do_copy)`: create the destination directory, then for every
child whose name matches no ignore pattern either recurse (directories) or
invoke the copy decision (files).  Returns the updated destination
filesystem and the list of source paths on which `do_copy` was invoked, in
traversal order. -/
def copyTreeGo (wf : List Char) (prev pats : List (List Char)) :
    FSTree → List Char → List Char → FS → FS × List (List Char)
  | FSTree.file f, srcP, dstP, fs => (doCopyEff fs wf prev f dstP srcP, [srcP])
  | FSTree.dir cs, srcP, dstP, fs => copyChildren wf prev pats cs srcP dstP (makedirsFS fs dstP)

/-- The per-entry loop of `copytree` over the listed children. -/
def copyChildren (wf : List Char) (prev pats : List (List Char)) :
    List (List Char × FSTree) → List Char → List Char → FS → FS × List (List Char)
  | [], _, _, fs => (fs, [])
  | (n, c) :: rest, srcP, dstP, fs =>
    if matchesIgnore pats n then copyChildren wf prev pats rest srcP dstP fs
    else
      let r1 := copyTreeGo wf prev pats c (srcP ++ sep :: n) (dstP ++ sep :: n) fs
      let r2 := copyChildren wf prev pats rest srcP dstP r1.1
      (r2.1, r1.2 ++ r2.2)

end

/-! ### Devices and the per-device run -/

/-- One configured source: its absolute path, its own ignore patterns, and
the tree found at that path on the source filesystem (`none` when the path
does not exist). -/
structure Source where
  path : List Char
  ignore : List (List Char)
  tree : Option FSTree

/-- One configured device. -/
structure Device where
  name : List Char
  dtype : List Char
  path : List Char
  working_folder : List Char
  free_space_threshold_gb : ℚ
  sources : List Source

/-- The device type that skips the copy machinery entirely. -/
def notSupportedName : List Char :=
  [ 'n', 'o', 't', '_', 's', 'u', 'p', 'p', 'o', 'r', 't', 'e', 'd']

/-- The abort reasons of the per-device preflight, in program order. -/
inductive AbortReason where
  | sourceMissing (p : List Char)
  | deviceNotFound (p : List Char)
  | freeSpaceExceeded
  | targetExists (p : List Char)
  deriving DecidableEq, Repr

/-- Data available when a device's preflight has succeeded. -/
structure PreflightOut where
  fs : FS
  wf : List Char
  target : List Char
  prev : List (List Char)

/-- Result of a completed device run. -/
structure RunOutput where
  fs : FS
  wf : List Char
  target : List Char
  prev : List (List Char)
  calls : List (List Char)

/-- The per-device preflight, backup.py lines 71–116, in program order:
create the working folder (line 78) and the logs folder plus the log file
(lines 80–84), abort on the first missing source (lines 93–95), abort when
the device path does not exist (lines 98–99), abort when the free space of
the device root in GiB — `freeGb`, the exact value
`disk_usage.free / 1024 / 1024 / 1024` that line 101 computes from the
external disk-usage reading — is at or below the threshold (lines
100–106), list previous backups (line 107), then create the target
generation folder exclusively (lines 112–116).  On abort the filesystem at
that moment is returned with the reason. -/
def preflight (today stamp : List Char) (freeGb : ℚ) (dev : Device) (fs0 : FS) :
    Except (AbortReason × FS) PreflightOut :=
  let wf := pathJoin dev.path dev.working_folder
  let fs1 := makedirsFS fs0 wf
  let target := pathJoin wf today
  let logF := pathJoin wf logsName
  let fs2 := makedirsFS fs1 logF
  let fs3 := putEntry fs2 (pathJoin logF stamp) {}
  match dev.sources.find? (fun s => s.tree.isNone) with
  | some s => Except.error (AbortReason.sourceMissing s.path, fs3)
  | none =>
    if pathExists fs3 dev.path = false then
      Except.error (AbortReason.deviceNotFound dev.path, fs3)
    else if freeGb > dev.free_space_threshold_gb then
      let prev := prev_backups fs3 wf
      if pathExists fs3 target then Except.error (AbortReason.targetExists target, fs3)
      else Except.ok ⟨putEntry fs3 target dirEntry, wf, target, prev⟩
    else Except.error (AbortReason.freeSpaceExceeded, fs3)

/-- One iteration of the copy phase, backup.py lines 119–128: a directory
source goes through `copytree`, a single-file source gets its parent
directories created and one `do_copy` call. -/
def sourceStep (wf target : List Char) (prev cfgIgnore : List (List Char))
    (acc : FS × List (List Char)) (s : Source) : FS × List (List Char) :=
  let pats := s.ignore ++ cfgIgnore
  let dst := target ++ sep :: mapPath s.path
  match s.tree with
  | some (FSTree.dir cs) =>
    let r := copyTreeGo wf prev pats (FSTree.dir cs) s.path dst acc.1
    (r.1, acc.2 ++ r.2)
  | some (FSTree.file f) =>
    let fs1 := makedirsFS acc.1 (dirnameP dst)
    (doCopyEff fs1 wf prev f dst s.path, acc.2 ++ [s.path])
  | none => acc

/-- One device's processing, backup.py lines 69–130: devices of type
`not_supported` only prompt for a manual copy (`ok none`); otherwise the
preflight runs and, when it succeeds, each source is copied in order.
Logging, the interactive prompt and the summary walk (lines 132–139) have
no effect on the filesystem and are omitted. -/
def deviceRun (cfgIgnore : List (List Char)) (today stamp : List Char) (freeGb : ℚ)
    (dev : Device) (fs0 : FS) : Except (AbortReason × FS) (Option RunOutput) :=
  if dev.dtype = notSupportedName then Except.ok none
  else
    match preflight today stamp freeGb dev fs0 with
    | Except.error e => Except.error e
    | Except.ok po =>
      let r := dev.sources.foldl (sourceStep po.wf po.target po.prev cfgIgnore) (po.fs, [])
      Except.ok (some ⟨r.1, po.wf, po.target, po.prev, r.2⟩)

/-! ### Small helper facts used by the run-level claims -/

theorem digit_ne_sep (c : Char) (h : pyIsDigitChar c = true) : c ≠ sep := by
  intro he
  subst he
  revert h
  decide

/-- A digit-named string has no separator in it. -/
theorem digits_no_sep (l : List Char) (h : ∀ c ∈ l, pyIsDigitChar c = true) : sep ∉ l :=
  fun hs => digit_ne_sep sep (h sep hs) rfl

/-- A nonempty digit-named string does not start with the separator. -/
theorem digits_head_ne_sep (l : List Char) (h : ∀ c ∈ l, pyIsDigitChar c = true) :
    l.head? ≠ some sep := by
  cases l with
  | nil => simp
  | cons a l' =>
    simp only [List.head?_cons, ne_eq, Option.some.injEq]
    exact digit_ne_sep a (h a (List.mem_cons_self a l'))

theorem pre_cancel_left (a x y : List Char) (h : a ++ x <+: a ++ y) : x <+: y := by
  obtain ⟨t, ht⟩ := h
  refine ⟨t, ?_⟩
  have ht2 : a ++ (x ++ t) = a ++ y := by simpa [List.append_assoc] using ht
  exact List.append_cancel_left ht2

/-- Two separator-free names followed by a separator can only be prefixes of
one another when they are equal. -/
theorem sepFree_pre_eq (n m t : List Char) (hn : sep ∉ n) (hm : sep ∉ m)
    (h : n ++ [sep] <+: m ++ sep :: t) : n = m := by
  induction n generalizing m with
  | nil =>
    cases m with
    | nil => rfl
    | cons c m' =>
      exfalso
      rw [List.nil_append, List.cons_append, List.cons_prefix_cons] at h
      exact hm (h.1 ▸ List.mem_cons_self c m')
  | cons a n' ih =>
    cases m with
    | nil =>
      exfalso
      rw [List.cons_append, List.nil_append, List.cons_prefix_cons] at h
      exact hn (h.1 ▸ List.mem_cons_self a n')
    | cons c m' =>
      rw [List.cons_append, List.cons_append, List.cons_prefix_cons] at h
      have hn' : sep ∉ n' := fun hx => hn (List.mem_cons_of_mem _ hx)
      have hm' : sep ∉ m' := fun hx => hm (List.mem_cons_of_mem _ hx)
      rw [h.1, ih m' hn' hm' h.2]

/-- A prefix of a separator-free name contains no separator, so a
separator-terminated prefix is impossible. -/
theorem sepFree_no_sep_pre (n m : List Char) (hm : sep ∉ m) (h : n ++ [sep] <+: m) :
    False := by
  have : sep ∈ m := h.subset (by simp)
  exact hm this

/-- Weakening of a cut below a child path to the parent path. -/
theorem sepCut_child (d n q : List Char) (h : sepCut (d ++ sep :: n) q) :
    sepCut d q ∨ (d ++ [sep]) <+: q := by
  rcases h with rfl | ⟨i, hi0, hi, rfl⟩
  · right; exact ⟨n, by simp⟩
  · rcases lt_trichotomy i d.length with hlt | heq | hgt
    · left; right
      refine ⟨i, hi0, ?_, ?_⟩
      · rwa [List.getElem?_append_left hlt] at hi
      · rw [List.take_append_eq_append_take]
        simp [Nat.sub_eq_zero_of_le (le_of_lt hlt)]
    · left; left
      rw [List.take_append_eq_append_take]
      simp [heq]
    · right
      rw [List.take_append_eq_append_take, List.take_of_length_le (le_of_lt hgt)]
      have hstep : i - d.length = (i - d.length - 1) + 1 := by omega
      rw [hstep, List.take_succ_cons]
      exact ⟨n.take (i - d.length - 1), by simp⟩

/-- A cut of a separator-free child path is the child itself or a short
path inside the parent. -/
theorem sepCut_sepFree_child (d n q : List Char) (hn : sep ∉ n)
    (h : sepCut (d ++ sep :: n) q) : q = d ++ sep :: n ∨ q.length ≤ d.length := by
  rcases sepCut_sepFree d n q hn h with h' | h'
  · right
    rcases sepCut_length _ _ h' with rfl | hlen
    · exact le_refl _
    · exact le_of_lt hlen
  · exact Or.inl h'

/-- Paths below distinct separator-free sibling names do not interfere. -/
def underPath (base q : List Char) : Prop := q = base ∨ (base ++ [sep]) <+: q

theorem not_underPath_sibling (d n m q : List Char) (hn : sep ∉ n) (hm : sep ∉ m)
    (hmn : m ≠ n)
    (h : sepCut (d ++ sep :: m) q ∨ ((d ++ sep :: m) ++ [sep]) <+: q) :
    ¬ underPath (d ++ sep :: n) q := by
  intro hu
  rcases h with hcut | hund
  · rcases sepCut_sepFree_child d m q hm hcut with rfl | hlen
    · rcases hu with he | hpre
      · exact hmn (by simpa using he)
      · -- (d ++ sep :: n) ++ [sep] is a prefix of d ++ sep :: m
        have : n ++ [sep] <+: m := by
          apply pre_cancel_left (d ++ [sep])
          simpa [List.append_assoc] using hpre
        exact sepFree_no_sep_pre n m hm this
    · rcases hu with rfl | hpre
      · simp only [List.length_append, List.length_cons] at hlen
        omega
      · have := hpre.length_le
        simp only [List.length_append, List.length_cons] at this hlen
        omega
  · obtain ⟨t, ht⟩ := hund
    rcases hu with he | hpre
    · -- q = d ++ sep :: n forces sep ∈ n
      rw [he] at ht
      have hx : (d ++ [sep]) ++ (m ++ sep :: t) = (d ++ [sep]) ++ n := by
        simpa [List.append_assoc] using ht
      have : m ++ sep :: t = n := List.append_cancel_left hx
      exact hn (this ▸ (by simp : sep ∈ m ++ sep :: t))
    · -- both n++[sep] and m++[sep] start the same list
      rw [← ht] at hpre
      have h2 : n ++ [sep] <+: m ++ sep :: t := by
        apply pre_cancel_left (d ++ [sep])
        simpa [List.append_assoc] using hpre
      exact hmn (sepFree_pre_eq n m t hn hm h2).symm

/-! ### Structure lemmas about the Tree Copier -/

mutual

theorem copyTreeGo_mono (wf : List Char) (prev pats : List (List Char))
    (t : FSTree) (srcP dstP : List Char) (fs : FS) (q : List Char)
    (hq : pathExists fs q = true) :
    pathExists (copyTreeGo wf prev pats t srcP dstP fs).1 q = true := by
  cases t with
  | file f =>
    unfold copyTreeGo doCopyEff
    cases do_copy fs wf prev f srcP
    · exact (pathExists_putEntry _ _ _ _).mpr (Or.inr hq)
    · exact hq
  | dir cs =>
    unfold copyTreeGo
    exact copyChildren_mono wf prev pats cs srcP dstP _ q
      ((pathExists_makedirs _ _ _).mpr (Or.inr hq))

theorem copyChildren_mono (wf : List Char) (prev pats : List (List Char))
    (cs : List (List Char × FSTree)) (srcP dstP : List Char) (fs : FS) (q : List Char)
    (hq : pathExists fs q = true) :
    pathExists (copyChildren wf prev pats cs srcP dstP fs).1 q = true := by
  match cs with
  | [] => simpa [copyChildren] using hq
  | (n, c) :: rest =>
    unfold copyChildren
    split_ifs with hig
    · exact copyChildren_mono wf prev pats rest srcP dstP fs q hq
    · exact copyChildren_mono wf prev pats rest srcP dstP _ q
        (copyTreeGo_mono wf prev pats c _ _ fs q hq)

end

mutual

theorem copyTreeGo_new (wf : List Char) (prev pats : List (List Char))
    (t : FSTree) (srcP dstP : List Char) (fs : FS) (q : List Char)
    (hq : pathExists (copyTreeGo wf prev pats t srcP dstP fs).1 q = true) :
    pathExists fs q = true ∨ sepCut dstP q ∨ (dstP ++ [sep]) <+: q := by
  cases t with
  | file f =>
    unfold copyTreeGo doCopyEff at hq
    revert hq
    cases do_copy fs wf prev f srcP <;> intro hq
    · rcases (pathExists_putEntry _ _ _ _).mp hq with rfl | h
      · exact Or.inr (Or.inl (sepCut_self _))
      · exact Or.inl h
    · exact Or.inl hq
  | dir cs =>
    unfold copyTreeGo at hq
    rcases copyChildren_new wf prev pats cs srcP dstP _ q hq with h | ⟨n, c, hmem, hkeep, hrest⟩
    · rcases (pathExists_makedirs _ _ _).mp h with h2 | h2
      · exact Or.inr (Or.inl (mem_ancestors_sepCut _ _ h2))
      · exact Or.inl h2
    · rcases hrest with hcut | hund
      · rcases sepCut_child dstP n q hcut with h2 | h2
        · exact Or.inr (Or.inl h2)
        · exact Or.inr (Or.inr h2)
      · exact Or.inr (Or.inr (List.IsPrefix.trans ⟨n ++ [sep], by simp⟩ hund))

theorem copyChildren_new (wf : List Char) (prev pats : List (List Char))
    (cs : List (List Char × FSTree)) (srcP dstP : List Char) (fs : FS) (q : List Char)
    (hq : pathExists (copyChildren wf prev pats cs srcP dstP fs).1 q = true) :
    pathExists fs q = true ∨ ∃ n c, (n, c) ∈ cs ∧ matchesIgnore pats n = false ∧
      (sepCut (dstP ++ sep :: n) q ∨ ((dstP ++ sep :: n) ++ [sep]) <+: q) := by
  match cs with
  | [] =>
    unfold copyChildren at hq
    exact Or.inl hq
  | (n, c) :: rest =>
    unfold copyChildren at hq
    split_ifs at hq with hig
    · rcases copyChildren_new wf prev pats rest srcP dstP fs q hq with h | ⟨m, c', hm, hk, hr⟩
      · exact Or.inl h
      · exact Or.inr ⟨m, c', List.mem_cons_of_mem _ hm, hk, hr⟩
    · rcases copyChildren_new wf prev pats rest srcP dstP _ q hq with h | ⟨m, c', hm, hk, hr⟩
      · rcases copyTreeGo_new wf prev pats c (srcP ++ sep :: n) (dstP ++ sep :: n) fs q h
          with h2 | h2 | h2
        · exact Or.inl h2
        · exact Or.inr ⟨n, c, List.mem_cons_self _ _, by simpa using hig, Or.inl h2⟩
        · exact Or.inr ⟨n, c, List.mem_cons_self _ _, by simpa using hig, Or.inr h2⟩
      · exact Or.inr ⟨m, c', List.mem_cons_of_mem _ hm, hk, hr⟩

end

mutual

theorem copyTreeGo_calls (wf : List Char) (prev pats : List (List Char))
    (t : FSTree) (srcP dstP : List Char) (fs : FS) (q : List Char)
    (hq : q ∈ (copyTreeGo wf prev pats t srcP dstP fs).2) :
    q = srcP ∨ (srcP ++ [sep]) <+: q := by
  cases t with
  | file f =>
    unfold copyTreeGo at hq
    exact Or.inl (by simpa using hq)
  | dir cs =>
    unfold copyTreeGo at hq
    obtain ⟨n, c, hm, hk, h⟩ := copyChildren_calls wf prev pats cs srcP dstP _ q hq
    rcases h with rfl | h
    · exact Or.inr ⟨n, by simp⟩
    · exact Or.inr (List.IsPrefix.trans ⟨n ++ [sep], by simp⟩ h)

theorem copyChildren_calls (wf : List Char) (prev pats : List (List Char))
    (cs : List (List Char × FSTree)) (srcP dstP : List Char) (fs : FS) (q : List Char)
    (hq : q ∈ (copyChildren wf prev pats cs srcP dstP fs).2) :
    ∃ n c, (n, c) ∈ cs ∧ matchesIgnore pats n = false ∧
      (q = srcP ++ sep :: n ∨ ((srcP ++ sep :: n) ++ [sep]) <+: q) := by
  match cs with
  | [] =>
    unfold copyChildren at hq
    exact absurd hq (by simp)
  | (n, c) :: rest =>
    unfold copyChildren at hq
    split_ifs at hq with hig
    · obtain ⟨m, c', hm, hk, h⟩ := copyChildren_calls wf prev pats rest srcP dstP fs q hq
      exact ⟨m, c', List.mem_cons_of_mem _ hm, hk, h⟩
    · rw [List.mem_append] at hq
      rcases hq with hq | hq
      · rcases copyTreeGo_calls wf prev pats c (srcP ++ sep :: n) (dstP ++ sep :: n) fs q hq
          with rfl | h
        · exact ⟨n, c, List.mem_cons_self _ _, by simpa using hig, Or.inl rfl⟩
        · exact ⟨n, c, List.mem_cons_self _ _, by simpa using hig, Or.inr h⟩
      · obtain ⟨m, c', hm, hk, h⟩ := copyChildren_calls wf prev pats rest srcP dstP _ q hq
        exact ⟨m, c', List.mem_cons_of_mem _ hm, hk, h⟩

end

theorem not_underPath_of_length (b q : List Char) (h : q.length < b.length) :
    ¬ underPath b q := by
  rintro (rfl | hpre)
  · exact lt_irrefl _ h
  · have := hpre.length_le
    simp only [List.length_append, List.length_cons, List.length_nil] at this
    omega

/-! ### Claim C9 — pruning of ignored entries -/

/-- Claim C9: a directory entry whose bare name matches any pattern in the
union of the source-specific and device-wide ignore lists is pruned
entirely by the tree copier: no path at or below its would-be destination
is ever written (everything that exists afterwards below that destination
already existed before), and no copy decision call is made on it or on
anything beneath it. -/
theorem ignored_entries_pruned (wf : List Char) (prev srcIgnore cfgIgnore : List (List Char))
    (cs : List (List Char × FSTree)) (srcP dstP : List Char) (fs : FS)
    (n : List Char) (c : FSTree)
    (hmem : (n, c) ∈ cs) (hmatch : matchesIgnore (srcIgnore ++ cfgIgnore) n = true)
    (hnames : ∀ e ∈ cs, sep ∉ e.1) :
    (∀ q, pathExists
        (copyTreeGo wf prev (srcIgnore ++ cfgIgnore) (FSTree.dir cs) srcP dstP fs).1 q = true →
      pathExists fs q = true ∨ ¬ underPath (dstP ++ sep :: n) q) ∧
    (∀ q, q ∈ (copyTreeGo wf prev (srcIgnore ++ cfgIgnore) (FSTree.dir cs) srcP dstP fs).2 →
      ¬ underPath (srcP ++ sep :: n) q) := by
  have hn : sep ∉ n := hnames (n, c) hmem
  constructor
  · intro q hq
    unfold copyTreeGo at hq
    rcases copyChildren_new wf prev _ cs srcP dstP _ q hq with h | ⟨m, c', hm, hk, hr⟩
    · rcases (pathExists_makedirs _ _ _).mp h with h2 | h2
      · right
        have hcut := mem_ancestors_sepCut _ _ h2
        apply not_underPath_of_length
        have hle : q.length ≤ dstP.length := by
          rcases sepCut_length _ _ hcut with rfl | hlen
          · exact le_refl _
          · exact le_of_lt hlen
        simp only [List.length_append, List.length_cons]
        omega
      · exact Or.inl h2
    · right
      have hm' : sep ∉ m := hnames (m, c') hm
      have hmn : m ≠ n := by
        intro he
        rw [he, hmatch] at hk
        exact Bool.noConfusion hk
      exact not_underPath_sibling dstP n m q hn hm' hmn hr
  · intro q hq
    unfold copyTreeGo at hq
    obtain ⟨m, c', hm, hk, h⟩ := copyChildren_calls wf prev _ cs srcP dstP _ q hq
    have hm' : sep ∉ m := hnames (m, c') hm
    have hmn : m ≠ n := by
      intro he
      rw [he, hmatch] at hk
      exact Bool.noConfusion hk
    refine not_underPath_sibling srcP n m q hn hm' hmn ?_
    rcases h with rfl | h
    · exact Or.inl (sepCut_self _)
    · exact Or.inr h

/-- Children of the C9 scenario: a directory `tmp` (with one file inside)
matching the glob `t*`, and a kept file `k`. -/
def c9cs : List (List Char × FSTree) :=
  [([ 't', 'm', 'p'], FSTree.dir [([ 'x'], FSTree.file {})]),
   ([ 'k'], FSTree.file {})]

/-- Closed witness instantiating `ignored_entries_pruned`: source ignore
list `[t*]`, empty device-wide list, entry `tmp` matching `t*`. -/
theorem ignored_entries_pruned_witness :
    (∀ q, pathExists
        (copyTreeGo [ '/', 'w'] [] ([[ 't', '*']] ++ []) (FSTree.dir c9cs)
          [ '/', 's'] [ '/', 'd'] []).1 q = true →
      pathExists ([] : FS) q = true ∨ ¬ underPath ([ '/', 'd'] ++ sep :: [ 't', 'm', 'p']) q) ∧
    (∀ q, q ∈ (copyTreeGo [ '/', 'w'] [] ([[ 't', '*']] ++ []) (FSTree.dir c9cs)
          [ '/', 's'] [ '/', 'd'] []).2 →
      ¬ underPath ([ '/', 's'] ++ sep :: [ 't', 'm', 'p']) q) :=
  ignored_entries_pruned [ '/', 'w'] [] [[ 't', '*']] [] c9cs [ '/', 's'] [ '/', 'd'] []
    [ 't', 'm', 'p'] (FSTree.dir [([ 'x'], FSTree.file {})])
    (List.mem_cons_self _ _) (by simp [matchesIgnore, globMatch]) (by decide)

/-! ### Characterization of the preflight -/

/-- The working folder of a device, line 71. -/
def wfOf (dev : Device) : List Char := pathJoin dev.path dev.working_folder

/-- The filesystem after the unconditional preparation steps of a device's
turn (working folder, logs folder, log file), before any check fires. -/
def fs3Of (dev : Device) (fs0 : FS) (stamp : List Char) : FS :=
  putEntry (makedirsFS (makedirsFS fs0 (wfOf dev)) (pathJoin (wfOf dev) logsName))
    (pathJoin (pathJoin (wfOf dev) logsName) stamp) {}

theorem preflight_eq (today stamp : List Char) (freeGb : ℚ) (dev : Device) (fs0 : FS) :
    preflight today stamp freeGb dev fs0 =
      match dev.sources.find? (fun s => s.tree.isNone) with
      | some s => Except.error (AbortReason.sourceMissing s.path, fs3Of dev fs0 stamp)
      | none =>
        if pathExists (fs3Of dev fs0 stamp) dev.path = false then
          Except.error (AbortReason.deviceNotFound dev.path, fs3Of dev fs0 stamp)
        else if freeGb > dev.free_space_threshold_gb then
          if pathExists (fs3Of dev fs0 stamp) (pathJoin (wfOf dev) today) then
            Except.error (AbortReason.targetExists (pathJoin (wfOf dev) today),
              fs3Of dev fs0 stamp)
          else Except.ok ⟨putEntry (fs3Of dev fs0 stamp) (pathJoin (wfOf dev) today) dirEntry,
            wfOf dev, pathJoin (wfOf dev) today,
            prev_backups (fs3Of dev fs0 stamp) (wfOf dev)⟩
        else Except.error (AbortReason.freeSpaceExceeded, fs3Of dev fs0 stamp) := rfl

theorem deviceRun_eq (cfgIgnore : List (List Char)) (today stamp : List Char) (freeGb : ℚ)
    (dev : Device) (fs0 : FS) :
    deviceRun cfgIgnore today stamp freeGb dev fs0 =
      if dev.dtype = notSupportedName then Except.ok none
      else
        match preflight today stamp freeGb dev fs0 with
        | Except.error e => Except.error e
        | Except.ok po =>
          Except.ok (some ⟨(dev.sources.foldl (sourceStep po.wf po.target po.prev cfgIgnore)
              (po.fs, [])).1,
            po.wf, po.target, po.prev,
            (dev.sources.foldl (sourceStep po.wf po.target po.prev cfgIgnore) (po.fs, [])).2⟩) :=
  rfl

/-- Monotonicity of the preparation steps. -/
theorem pathExists_fs3_mono (dev : Device) (fs0 : FS) (stamp q : List Char)
    (hq : pathExists fs0 q = true) : pathExists (fs3Of dev fs0 stamp) q = true := by
  unfold fs3Of
  exact (pathExists_putEntry _ _ _ _).mpr (Or.inr ((pathExists_makedirs _ _ _).mpr
    (Or.inr ((pathExists_makedirs _ _ _).mpr (Or.inr hq)))))

/-- Everything existing after the preparation steps existed before or is
the working-folder chain, the logs folder or the log file. -/
theorem pathExists_fs3_cases (dev : Device) (fs0 : FS) (stamp q : List Char)
    (hq : pathExists (fs3Of dev fs0 stamp) q = true) :
    pathExists fs0 q = true ∨ q ∈ ancestors (wfOf dev) ∨
      q ∈ ancestors (pathJoin (wfOf dev) logsName) ∨
      q = pathJoin (pathJoin (wfOf dev) logsName) stamp := by
  unfold fs3Of at hq
  rcases (pathExists_putEntry _ _ _ _).mp hq with rfl | h
  · exact Or.inr (Or.inr (Or.inr rfl))
  · rcases (pathExists_makedirs _ _ _).mp h with h2 | h2
    · exact Or.inr (Or.inr (Or.inl h2))
    · rcases (pathExists_makedirs _ _ _).mp h2 with h3 | h3
      · exact Or.inr (Or.inl h3)
      · exact Or.inl h3

/-- Normal-shape facts: under the usual path-shape hypotheses the target
folder differs from everything the preparation steps can create. -/
theorem target_fresh (dev : Device) (today stamp : List Char)
    (hwfne : wfOf dev ≠ []) (hwflast : (wfOf dev).getLast? ≠ some sep)
    (htdig : ∀ c ∈ today, pyIsDigitChar c = true)
    (hstamp : stamp.head? ≠ some sep) :
    pathJoin (wfOf dev) today ∉ ancestors (wfOf dev) ∧
    pathJoin (wfOf dev) today ∉ ancestors (pathJoin (wfOf dev) logsName) ∧
    pathJoin (wfOf dev) today ≠ pathJoin (pathJoin (wfOf dev) logsName) stamp := by
  have htarget : pathJoin (wfOf dev) today = wfOf dev ++ sep :: today :=
    pathJoin_normal _ _ (digits_head_ne_sep today htdig) hwfne hwflast
  have hlogF : pathJoin (wfOf dev) logsName = wfOf dev ++ sep :: logsName :=
    pathJoin_normal _ _ (by decide) hwfne hwflast
  have hlogFne : pathJoin (wfOf dev) logsName ≠ [] := by
    rw [hlogF]
    simp
  have hlogFlast : (pathJoin (wfOf dev) logsName).getLast? ≠ some sep := by
    rw [hlogF, List.getLast?_append_of_ne_nil _ (by simp : sep :: logsName ≠ [])]
    decide
  have hlogFile : pathJoin (pathJoin (wfOf dev) logsName) stamp =
      wfOf dev ++ sep :: (logsName ++ sep :: stamp) := by
    rw [pathJoin_normal _ _ hstamp hlogFne hlogFlast, hlogF]
    simp
  have hlen : ∀ q, sepCut (wfOf dev) q → q.length ≤ (wfOf dev).length := by
    intro q hc
    rcases sepCut_length _ _ hc with rfl | h
    · exact le_refl _
    · exact le_of_lt h
  refine ⟨?_, ?_, ?_⟩
  · intro hmem
    have := hlen _ (mem_ancestors_sepCut _ _ hmem)
    rw [htarget] at this
    simp only [List.length_append, List.length_cons] at this
    omega
  · intro hmem
    have hcut := mem_ancestors_sepCut _ _ hmem
    rw [hlogF] at hcut
    rcases sepCut_sepFree _ _ _ (by decide) hcut with hc | hc
    · have := hlen _ hc
      rw [htarget] at this
      simp only [List.length_append, List.length_cons] at this
      omega
    · rw [htarget] at hc
      have heq : today = logsName := by simpa using hc
      have : pyIsDigitChar 'l' = true := htdig 'l' (by rw [heq]; decide)
      exact absurd this (by decide)
  · intro he
    rw [htarget, hlogFile] at he
    have heq : today = logsName ++ sep :: stamp := by simpa using he
    exact digits_no_sep today htdig (by rw [heq]; simp)

/-- The target folder's existence is unchanged by the preparation steps. -/
theorem pathExists_fs3_target (dev : Device) (fs0 : FS) (today stamp : List Char)
    (hwfne : wfOf dev ≠ []) (hwflast : (wfOf dev).getLast? ≠ some sep)
    (htdig : ∀ c ∈ today, pyIsDigitChar c = true)
    (hstamp : stamp.head? ≠ some sep) :
    pathExists (fs3Of dev fs0 stamp) (pathJoin (wfOf dev) today) =
      pathExists fs0 (pathJoin (wfOf dev) today) := by
  obtain ⟨h1, h2, h3⟩ := target_fresh dev today stamp hwfne hwflast htdig hstamp
  cases hb : pathExists fs0 (pathJoin (wfOf dev) today) with
  | true => exact pathExists_fs3_mono dev fs0 stamp _ hb
  | false =>
    cases hx : pathExists (fs3Of dev fs0 stamp) (pathJoin (wfOf dev) today) with
    | false => rfl
    | true =>
      exfalso
      rcases pathExists_fs3_cases dev fs0 stamp _ hx with h | h | h | h
      · rw [hb] at h
        exact Bool.noConfusion h
      · exact h1 h
      · exact h2 h
      · exact h3 h

/-- The target folder's entry is unchanged by the preparation steps. -/
theorem fsFind_fs3_target (dev : Device) (fs0 : FS) (today stamp : List Char)
    (hwfne : wfOf dev ≠ []) (hwflast : (wfOf dev).getLast? ≠ some sep)
    (htdig : ∀ c ∈ today, pyIsDigitChar c = true)
    (hstamp : stamp.head? ≠ some sep) :
    fsFind (fs3Of dev fs0 stamp) (pathJoin (wfOf dev) today) =
      fsFind fs0 (pathJoin (wfOf dev) today) := by
  obtain ⟨h1, h2, h3⟩ := target_fresh dev today stamp hwfne hwflast htdig hstamp
  unfold fs3Of
  rw [fsFind_putEntry_ne _ _ _ _ h3, fsFind_makedirs_ne _ _ _ h2, fsFind_makedirs_ne _ _ _ h1]

/-- The device path exists after the preparation steps: `os.makedirs` of the
working folder has created it as an intermediate directory. -/
theorem devpath_exists_fs3 (dev : Device) (fs0 : FS) (stamp : List Char)
    (hdpne : dev.path ≠ []) (hdplast : dev.path.getLast? ≠ some sep)
    (hwfh : dev.working_folder.head? ≠ some sep) :
    pathExists (fs3Of dev fs0 stamp) dev.path = true := by
  have hwf : wfOf dev = dev.path ++ sep :: dev.working_folder :=
    pathJoin_normal _ _ hwfh hdpne hdplast
  have hmem : dev.path ∈ ancestors (wfOf dev) := by
    unfold ancestors
    rw [List.mem_append, List.mem_filterMap]
    left
    refine ⟨dev.path.length, ?_, ?_⟩
    · rw [List.mem_range, hwf]
      simp only [List.length_append, List.length_cons]
      omega
    · rw [if_pos]
      · congr 1
        rw [hwf, List.take_append_eq_append_take]
        simp
      · constructor
        · exact List.length_pos.mpr hdpne
        · rw [hwf, List.getElem?_append_right (le_refl _)]
          simp
  unfold fs3Of
  exact (pathExists_putEntry _ _ _ _).mpr (Or.inr ((pathExists_makedirs _ _ _).mpr
    (Or.inr ((pathExists_makedirs _ _ _).mpr (Or.inl hmem)))))

/-- A successful preflight implies the free-space gate held, the target was
absent, and fixes every component of the output. -/
theorem preflight_ok_gt (today stamp : List Char) (freeGb : ℚ) (dev : Device) (fs0 : FS)
    (po : PreflightOut) (h : preflight today stamp freeGb dev fs0 = Except.ok po) :
    freeGb > dev.free_space_threshold_gb ∧
    po.fs = putEntry (fs3Of dev fs0 stamp) (pathJoin (wfOf dev) today) dirEntry ∧
    po.wf = wfOf dev ∧ po.target = pathJoin (wfOf dev) today ∧
    po.prev = prev_backups (fs3Of dev fs0 stamp) (wfOf dev) ∧
    pathExists (fs3Of dev fs0 stamp) (pathJoin (wfOf dev) today) = false := by
  rw [preflight_eq] at h
  split at h
  · exact absurd h (by simp)
  · by_cases h1 : pathExists (fs3Of dev fs0 stamp) dev.path = false
    · rw [if_pos h1] at h
      exact absurd h (by simp)
    · rw [if_neg h1] at h
      by_cases h2 : freeGb > dev.free_space_threshold_gb
      · rw [if_pos h2] at h
        by_cases h3 : pathExists (fs3Of dev fs0 stamp) (pathJoin (wfOf dev) today) = true
        · rw [if_pos h3] at h
          exact absurd h (by simp)
        · rw [if_neg h3] at h
          simp only [Except.ok.injEq] at h
          subst h
          exact ⟨h2, rfl, rfl, rfl, rfl, by simpa using h3⟩
      · rw [if_neg h2] at h
        exact absurd h (by simp)

/-- With all sources present and the free-space gate failing, the preflight
aborts with the free-space reason, before the target folder is created. -/
theorem preflight_freeSpace_abort (today stamp : List Char) (freeGb : ℚ) (dev : Device)
    (fs0 : FS)
    (hsrc : ∀ s ∈ dev.sources, s.tree.isSome = true)
    (hdp : pathExists (fs3Of dev fs0 stamp) dev.path = true)
    (hle : freeGb ≤ dev.free_space_threshold_gb) :
    preflight today stamp freeGb dev fs0 =
      Except.error (AbortReason.freeSpaceExceeded, fs3Of dev fs0 stamp) := by
  rw [preflight_eq]
  have hf : dev.sources.find? (fun s => s.tree.isNone) = none := by
    rw [List.find?_eq_none]
    intro s hs
    have := hsrc s hs
    cases htr : s.tree <;> simp_all
  rw [hf]
  rw [if_neg (by rw [hdp]; simp)]
  rw [if_neg (not_lt.mpr hle)]

/-! ### Claim C5 — the free-space gate -/

/-- Claim C5: for a supported device (normal path shapes assumed), the copy
phase runs only when the free space of the device root in GiB strictly
exceeds the configured threshold, and free space at or below the threshold
aborts the run with the free-space reason before the target generation
folder is created — its existence state at the abort equals its initial
one, so no generation folder for the run exists. -/
theorem free_space_gate (cfgIgnore : List (List Char)) (today stamp : List Char)
    (freeGb : ℚ) (dev : Device) (fs0 : FS)
    (hty : dev.dtype ≠ notSupportedName)
    (hwfne : wfOf dev ≠ []) (hwflast : (wfOf dev).getLast? ≠ some sep)
    (htdig : ∀ c ∈ today, pyIsDigitChar c = true)
    (hstamp : stamp.head? ≠ some sep)
    (hdpne : dev.path ≠ []) (hdplast : dev.path.getLast? ≠ some sep)
    (hwfh : dev.working_folder.head? ≠ some sep) :
    (∀ out, deviceRun cfgIgnore today stamp freeGb dev fs0 = Except.ok (some out) →
      freeGb > dev.free_space_threshold_gb) ∧
    (freeGb ≤ dev.free_space_threshold_gb → (∀ s ∈ dev.sources, s.tree.isSome = true) →
      ∃ fsA, deviceRun cfgIgnore today stamp freeGb dev fs0 =
          Except.error (AbortReason.freeSpaceExceeded, fsA) ∧
        pathExists fsA (pathJoin (wfOf dev) today) =
          pathExists fs0 (pathJoin (wfOf dev) today)) := by
  constructor
  · intro out h
    rw [deviceRun_eq, if_neg hty] at h
    cases hpf : preflight today stamp freeGb dev fs0 with
    | error e =>
      rw [hpf] at h
      simp at h
    | ok po =>
      exact (preflight_ok_gt today stamp freeGb dev fs0 po hpf).1
  · intro hle hsrc
    refine ⟨fs3Of dev fs0 stamp, ?_, ?_⟩
    · rw [deviceRun_eq, if_neg hty,
        preflight_freeSpace_abort today stamp freeGb dev fs0 hsrc
          (devpath_exists_fs3 dev fs0 stamp hdpne hdplast hwfh) hle]
    · exact pathExists_fs3_target dev fs0 today stamp hwfne hwflast htdig hstamp

/-- Closed witness instantiating `free_space_gate` at a concrete device. -/
def c5dev : Device := {
  name := [ 'x'], dtype := [ 'h', 'd', 'd'], path := [ '/', 'd'],
  working_folder := [ 'w'], free_space_threshold_gb := 5,
  sources := [{ path := [ '/', 'q'], ignore := [], tree := some (FSTree.file {}) }] }

theorem free_space_gate_witness :
    (∀ out, deviceRun [] [ '2', '0'] [ 's'] 2 c5dev [] = Except.ok (some out) →
      (2 : ℚ) > c5dev.free_space_threshold_gb) ∧
    ((2 : ℚ) ≤ c5dev.free_space_threshold_gb → (∀ s ∈ c5dev.sources, s.tree.isSome = true) →
      ∃ fsA, deviceRun [] [ '2', '0'] [ 's'] 2 c5dev [] =
          Except.error (AbortReason.freeSpaceExceeded, fsA) ∧
        pathExists fsA (pathJoin (wfOf c5dev) [ '2', '0']) =
          pathExists [] (pathJoin (wfOf c5dev) [ '2', '0'])) :=
  free_space_gate [] [ '2', '0'] [ 's'] 2 c5dev []
    (by decide) (by decide) (by decide) (by decide) (by decide) (by decide) (by decide)
    (by decide)

/-! ### Claim C6 — the device-root existence check -/

/-- Result shape used in the C6 demonstration. -/
def isOkSome : Except (AbortReason × FS) (Option RunOutput) → Bool
  | Except.ok (some _) => true
  | _ => false

/-- Filesystem of a successful run (empty otherwise). -/
def runFS : Except (AbortReason × FS) (Option RunOutput) → FS
  | Except.ok (some o) => o.fs
  | _ => []

/-- Device of the C6 scenario: its root `/d` does not exist. -/
def c6dev : Device := {
  name := [ 'x'], dtype := [ 'h', 'd', 'd'], path := [ '/', 'd'],
  working_folder := [ 'w'], free_space_threshold_gb := 1,
  sources := [{ path := [ '/', 'q'], ignore := [], tree := some (FSTree.file {}) }] }

/-- Claim C6 is contradicted by the code: with the device root `/d` absent
from the (empty) filesystem when the device's turn begins, the run does
not abort — line 78's `makedirs(working_folder, exist_ok=True)` silently
creates the device root as an intermediate directory before line 98 checks
for it, so the check is dead and the copy phase runs, writing the backup
into the freshly created (wrong) directory tree. -/
theorem device_root_check_dead :
    pathExists [] c6dev.path = false ∧
    isOkSome (deviceRun [] [ '2', '0'] [ 's'] 2 c6dev []) = true ∧
    pathExists (runFS (deviceRun [] [ '2', '0'] [ 's'] 2 c6dev [])) c6dev.path = true := by
  decide

/-! ### Structure lemmas about the copy phase -/

theorem sourceStep_none (wf target : List Char) (prev cfg : List (List Char))
    (acc : FS × List (List Char)) (s : Source) (hs : s.tree = none) :
    sourceStep wf target prev cfg acc s = acc := by
  unfold sourceStep
  rw [hs]

theorem sourceStep_dir (wf target : List Char) (prev cfg : List (List Char))
    (acc : FS × List (List Char)) (s : Source) (cs : List (List Char × FSTree))
    (hs : s.tree = some (FSTree.dir cs)) :
    sourceStep wf target prev cfg acc s =
      ((copyTreeGo wf prev (s.ignore ++ cfg) (FSTree.dir cs) s.path
          (target ++ sep :: mapPath s.path) acc.1).1,
       acc.2 ++ (copyTreeGo wf prev (s.ignore ++ cfg) (FSTree.dir cs) s.path
          (target ++ sep :: mapPath s.path) acc.1).2) := by
  unfold sourceStep
  rw [hs]

theorem sourceStep_file (wf target : List Char) (prev cfg : List (List Char))
    (acc : FS × List (List Char)) (s : Source) (f : PyFile)
    (hs : s.tree = some (FSTree.file f)) :
    sourceStep wf target prev cfg acc s =
      (doCopyEff (makedirsFS acc.1 (dirnameP (target ++ sep :: mapPath s.path))) wf prev f
        (target ++ sep :: mapPath s.path) s.path,
       acc.2 ++ [s.path]) := by
  unfold sourceStep
  rw [hs]

theorem sourceStep_mono (wf target : List Char) (prev cfg : List (List Char))
    (acc : FS × List (List Char)) (s : Source) (q : List Char)
    (hq : pathExists acc.1 q = true) :
    pathExists (sourceStep wf target prev cfg acc s).1 q = true := by
  cases hs : s.tree with
  | none =>
    rw [sourceStep_none wf target prev cfg acc s hs]
    exact hq
  | some t =>
    cases t with
    | dir cs =>
      rw [sourceStep_dir wf target prev cfg acc s cs hs]
      exact copyTreeGo_mono wf prev _ _ _ _ acc.1 q hq
    | file f =>
      rw [sourceStep_file wf target prev cfg acc s f hs]
      unfold doCopyEff
      cases do_copy (makedirsFS acc.1 (dirnameP (target ++ sep :: mapPath s.path))) wf prev f
          s.path
      · exact (pathExists_putEntry _ _ _ _).mpr
          (Or.inr ((pathExists_makedirs _ _ _).mpr (Or.inr hq)))
      · exact (pathExists_makedirs _ _ _).mpr (Or.inr hq)

theorem copyPhase_mono (wf target : List Char) (prev cfg : List (List Char))
    (sources : List Source) (acc : FS × List (List Char)) (q : List Char)
    (hq : pathExists acc.1 q = true) :
    pathExists ((sources.foldl (sourceStep wf target prev cfg) acc)).1 q = true := by
  induction sources generalizing acc with
  | nil => exact hq
  | cons s rest ih =>
    exact ih _ (sourceStep_mono wf target prev cfg acc s q hq)

/-- Lifting a cut of `dirname p` to a cut of `p` (modulo the degenerate
empty/all-separator heads). -/
theorem sepCut_dirname_lift (p q : List Char) (h : sepCut (dirnameP p) q) :
    sepCut p q ∨ q = [] ∨ (∀ c ∈ q, c = sep) := by
  rcases dirnameP_spec p with hd | hd | ⟨hd0, hdcut⟩
  · rw [hd] at h
    rcases h with rfl | ⟨i, hi0, hi, rfl⟩
    · exact Or.inr (Or.inl rfl)
    · exact absurd hi (by simp)
  · rcases h with rfl | ⟨i, hi0, hi, rfl⟩
    · exact Or.inr (Or.inr hd)
    · exact Or.inr (Or.inr (fun c hc => hd c (List.take_subset _ _ hc)))
  · have hpre := dirnameP_pre p
    have heq : dirnameP p = p.take (dirnameP p).length := List.prefix_iff_eq_take.mp hpre
    exact Or.inl (sepCut_trans p (dirnameP p) q (Or.inr ⟨(dirnameP p).length, hd0, hdcut, heq⟩) h)

theorem sourceStep_new (wf target : List Char) (prev cfg : List (List Char))
    (acc : FS × List (List Char)) (s : Source) (q : List Char)
    (hq : pathExists (sourceStep wf target prev cfg acc s).1 q = true) :
    pathExists acc.1 q = true ∨
      sepCut (target ++ sep :: mapPath s.path) q ∨
      ((target ++ sep :: mapPath s.path) ++ [sep]) <+: q ∨
      q = [] ∨ (∀ c ∈ q, c = sep) := by
  cases hs : s.tree with
  | none =>
    rw [sourceStep_none wf target prev cfg acc s hs] at hq
    exact Or.inl hq
  | some t =>
    cases t with
    | dir cs =>
      rw [sourceStep_dir wf target prev cfg acc s cs hs] at hq
      rcases copyTreeGo_new wf prev _ _ _ _ acc.1 q hq with h | h | h
      · exact Or.inl h
      · exact Or.inr (Or.inl h)
      · exact Or.inr (Or.inr (Or.inl h))
    | file f =>
      rw [sourceStep_file wf target prev cfg acc s f hs] at hq
      unfold doCopyEff at hq
      revert hq
      cases do_copy (makedirsFS acc.1 (dirnameP (target ++ sep :: mapPath s.path))) wf prev f
          s.path <;> intro hq
      · rcases (pathExists_putEntry _ _ _ _).mp hq with rfl | h
        · exact Or.inr (Or.inl (sepCut_self _))
        · rcases (pathExists_makedirs _ _ _).mp h with h2 | h2
          · rcases sepCut_dirname_lift _ _ (mem_ancestors_sepCut _ _ h2) with h3 | h3 | h3
            · exact Or.inr (Or.inl h3)
            · exact Or.inr (Or.inr (Or.inr (Or.inl h3)))
            · exact Or.inr (Or.inr (Or.inr (Or.inr h3)))
          · exact Or.inl h2
      · rcases (pathExists_makedirs _ _ _).mp hq with h2 | h2
        · rcases sepCut_dirname_lift _ _ (mem_ancestors_sepCut _ _ h2) with h3 | h3 | h3
          · exact Or.inr (Or.inl h3)
          · exact Or.inr (Or.inr (Or.inr (Or.inl h3)))
          · exact Or.inr (Or.inr (Or.inr (Or.inr h3)))
        · exact Or.inl h2

theorem copyPhase_new (wf target : List Char) (prev cfg : List (List Char))
    (sources : List Source) (acc : FS × List (List Char)) (q : List Char)
    (hq : pathExists ((sources.foldl (sourceStep wf target prev cfg) acc)).1 q = true) :
    pathExists acc.1 q = true ∨ ∃ s, s ∈ sources ∧
      (sepCut (target ++ sep :: mapPath s.path) q ∨
       ((target ++ sep :: mapPath s.path) ++ [sep]) <+: q ∨
       q = [] ∨ (∀ c ∈ q, c = sep)) := by
  induction sources generalizing acc with
  | nil => exact Or.inl hq
  | cons s rest ih =>
    rcases ih _ hq with h | ⟨s', hs', hb⟩
    · rcases sourceStep_new wf target prev cfg acc s q h with h2 | h2 | h2 | h2 | h2
      · exact Or.inl h2
      · exact Or.inr ⟨s, List.mem_cons_self _ _, Or.inl h2⟩
      · exact Or.inr ⟨s, List.mem_cons_self _ _, Or.inr (Or.inl h2)⟩
      · exact Or.inr ⟨s, List.mem_cons_self _ _, Or.inr (Or.inr (Or.inl h2))⟩
      · exact Or.inr ⟨s, List.mem_cons_self _ _, Or.inr (Or.inr (Or.inr h2))⟩
    · exact Or.inr ⟨s', List.mem_cons_of_mem _ hs', hb⟩

/-- Membership in the generation index gives existence and a clean name. -/
theorem mem_prev_backups_aux (fs : FS) (wf b : List Char) (h : b ∈ prev_backups fs wf) :
    pathExists fs (wf ++ sep :: b) = true ∧ b ≠ [] ∧ sep ∉ b := by
  unfold prev_backups at h
  rw [mem_sortDesc, List.mem_filter] at h
  exact (mem_listdirFS fs wf b).mp h.1

theorem pyStrIsDigit_of (l : List Char) (hne : l ≠ [])
    (hdig : ∀ c ∈ l, pyIsDigitChar c = true) : pyStrIsDigit l = true := by
  unfold pyStrIsDigit
  rw [Bool.and_eq_true, List.all_eq_true]
  exact ⟨by simpa using hne, hdig⟩

theorem child_not_sepCut_wf (wf m q : List Char) (hq : q = wf ++ sep :: m)
    (h : sepCut wf q) : False := by
  rcases sepCut_length _ _ h with rfl | hlen
  · have := congrArg List.length hq
    simp only [List.length_append, List.length_cons] at this
    omega
  · rw [hq] at hlen
    simp only [List.length_append, List.length_cons] at hlen
    omega

/-- A separator-free nonempty digit-named child of the working folder that
exists after the preparation steps already existed before them. -/
theorem child_cases_preflight (dev : Device) (fs0 : FS) (today stamp m : List Char)
    (hwfne : wfOf dev ≠ []) (hwflast : (wfOf dev).getLast? ≠ some sep)
    (hstamp : stamp.head? ≠ some sep)
    (hns : sep ∉ m) (hdig : pyStrIsDigit m = true)
    (hpe : pathExists (fs3Of dev fs0 stamp) (wfOf dev ++ sep :: m) = true) :
    pathExists fs0 (wfOf dev ++ sep :: m) = true := by
  have hlogF : pathJoin (wfOf dev) logsName = wfOf dev ++ sep :: logsName :=
    pathJoin_normal _ _ (by decide) hwfne hwflast
  have hlogFne : pathJoin (wfOf dev) logsName ≠ [] := by
    rw [hlogF]; simp
  have hlogFlast : (pathJoin (wfOf dev) logsName).getLast? ≠ some sep := by
    rw [hlogF, List.getLast?_append_of_ne_nil _ (by simp : sep :: logsName ≠ [])]
    decide
  have hlogFile : pathJoin (pathJoin (wfOf dev) logsName) stamp =
      wfOf dev ++ sep :: (logsName ++ sep :: stamp) := by
    rw [pathJoin_normal _ _ hstamp hlogFne hlogFlast, hlogF]
    simp
  rcases pathExists_fs3_cases dev fs0 stamp _ hpe with h | h | h | h
  · exact h
  · exact absurd (mem_ancestors_sepCut _ _ h) (fun hc => child_not_sepCut_wf _ _ _ rfl hc)
  · have hcut := mem_ancestors_sepCut _ _ h
    rw [hlogF] at hcut
    rcases sepCut_sepFree _ _ _ (by decide) hcut with hc | hc
    · exact absurd hc (fun hc => child_not_sepCut_wf _ _ _ rfl hc)
    · have heq : m = logsName := by simpa using hc
      rw [heq] at hdig
      exact absurd hdig (by decide)
  · rw [hlogFile] at h
    have heq : m = logsName ++ sep :: stamp := by simpa using h
    exact absurd (by rw [heq]; simp : sep ∈ m) hns

/-- Every preflight abort carries the filesystem as of the preparation
steps: no abort path creates the target folder. -/
theorem preflight_error_fs (today stamp : List Char) (freeGb : ℚ) (dev : Device) (fs0 : FS)
    (r : AbortReason) (fsA : FS)
    (h : preflight today stamp freeGb dev fs0 = Except.error (r, fsA)) :
    fsA = fs3Of dev fs0 stamp := by
  rw [preflight_eq] at h
  split at h
  · simp only [Except.error.injEq, Prod.mk.injEq] at h
    exact h.2.symm
  · by_cases h1 : pathExists (fs3Of dev fs0 stamp) dev.path = false
    · rw [if_pos h1] at h
      simp only [Except.error.injEq, Prod.mk.injEq] at h
      exact h.2.symm
    · rw [if_neg h1] at h
      by_cases h2 : freeGb > dev.free_space_threshold_gb
      · rw [if_pos h2] at h
        by_cases h3 : pathExists (fs3Of dev fs0 stamp) (pathJoin (wfOf dev) today) = true
        · rw [if_pos h3] at h
          simp only [Except.error.injEq, Prod.mk.injEq] at h
          exact h.2.symm
        · rw [if_neg h3] at h
          exact absurd h (by simp)
      · rw [if_neg h2] at h
        simp only [Except.error.injEq, Prod.mk.injEq] at h
        exact h.2.symm

/-! ### Claim C4 — exclusive creation of the target generation folder -/

/-- Claim C4: for every supported device (normal path shapes assumed), the
run creates its target generation folder exclusively.  When a folder with
the current date-stamp name already exists under the working folder, the
run aborts and that folder's entry is untouched; otherwise, on a completed
run, the digit-named children of the working folder afterwards are exactly
the initial ones plus the single new generation named by the date stamp. -/
theorem target_folder_exclusive (cfgIgnore : List (List Char)) (today stamp : List Char)
    (freeGb : ℚ) (dev : Device) (fs0 : FS)
    (hty : dev.dtype ≠ notSupportedName)
    (hwfne : wfOf dev ≠ []) (hwflast : (wfOf dev).getLast? ≠ some sep)
    (htne : today ≠ []) (htdig : ∀ c ∈ today, pyIsDigitChar c = true)
    (hstamp : stamp.head? ≠ some sep) :
    (pathExists fs0 (pathJoin (wfOf dev) today) = true →
      ∃ r fsA, deviceRun cfgIgnore today stamp freeGb dev fs0 = Except.error (r, fsA) ∧
        fsFind fsA (pathJoin (wfOf dev) today) = fsFind fs0 (pathJoin (wfOf dev) today)) ∧
    (∀ out, deviceRun cfgIgnore today stamp freeGb dev fs0 = Except.ok (some out) →
      pathExists fs0 (pathJoin (wfOf dev) today) = false ∧
      out.target = pathJoin (wfOf dev) today ∧
      (∀ m, (m ∈ listdirFS out.fs (wfOf dev) ∧ pyStrIsDigit m = true) ↔
        ((m ∈ listdirFS fs0 (wfOf dev) ∧ pyStrIsDigit m = true) ∨ m = today))) := by
  have htarget : pathJoin (wfOf dev) today = wfOf dev ++ sep :: today :=
    pathJoin_normal _ _ (digits_head_ne_sep today htdig) hwfne hwflast
  constructor
  · intro hex
    have hex3 : pathExists (fs3Of dev fs0 stamp) (pathJoin (wfOf dev) today) = true :=
      pathExists_fs3_mono dev fs0 stamp _ hex
    cases hpf : preflight today stamp freeGb dev fs0 with
    | ok po =>
      exfalso
      have habs := (preflight_ok_gt today stamp freeGb dev fs0 po hpf).2.2.2.2.2
      rw [hex3] at habs
      exact Bool.noConfusion habs
    | error e =>
      obtain ⟨r, fsA⟩ := e
      have hfsA : fsA = fs3Of dev fs0 stamp :=
        preflight_error_fs today stamp freeGb dev fs0 r fsA hpf
      refine ⟨r, fsA, ?_, ?_⟩
      · rw [deviceRun_eq, if_neg hty, hpf]
      · rw [hfsA]
        exact fsFind_fs3_target dev fs0 today stamp hwfne hwflast htdig hstamp
  · intro out h
    rw [deviceRun_eq, if_neg hty] at h
    cases hpf : preflight today stamp freeGb dev fs0 with
    | error e =>
      rw [hpf] at h
      simp at h
    | ok po =>
      rw [hpf] at h
      simp only [Except.ok.injEq, Option.some.injEq] at h
      obtain ⟨hgt, hpofs, hpowf, hpotgt, hpoprev, htgtabs⟩ :=
        preflight_ok_gt today stamp freeGb dev fs0 po hpf
      subst h
      refine ⟨?_, hpotgt, ?_⟩
      · rw [← pathExists_fs3_target dev fs0 today stamp hwfne hwflast htdig hstamp]
        exact htgtabs
      · intro m
        constructor
        · rintro ⟨hmem, hdig⟩
          rw [mem_listdirFS] at hmem
          obtain ⟨hpe, hne, hns⟩ := hmem
          rcases copyPhase_new po.wf po.target po.prev cfgIgnore dev.sources (po.fs, []) _ hpe
            with hacc | ⟨s, hsmem, hbuck⟩
          · rw [hpofs] at hacc
            rcases (pathExists_putEntry _ _ _ _).mp hacc with he | hacc2
            · right
              rw [htarget] at he
              simpa using he
            · left
              refine ⟨?_, hdig⟩
              rw [mem_listdirFS]
              exact ⟨child_cases_preflight dev fs0 today stamp m hwfne hwflast hstamp hns hdig
                hacc2, hne, hns⟩
          · rw [hpotgt, htarget] at hbuck
            rcases hbuck with hcut | hund | hnil | hsep
            · have hcut2 : sepCut (wfOf dev ++ sep ::
                  (today ++ sep :: mapPath s.path)) (wfOf dev ++ sep :: m) := by
                simpa using hcut
              rcases sepCut_deep _ _ _ _ (digits_no_sep today htdig) hcut2 with hc | hc | hc
              · exact absurd hc (fun hc => child_not_sepCut_wf _ _ _ rfl hc)
              · right
                simpa using hc
              · exfalso
                have hpre : today ++ [sep] <+: m := by
                  apply pre_cancel_left (wfOf dev ++ [sep])
                  simpa [List.append_assoc] using hc
                exact sepFree_no_sep_pre today m hns hpre
            · exfalso
              have hpre : (today ++ sep :: (mapPath s.path ++ [sep])) <+: m := by
                apply pre_cancel_left (wfOf dev ++ [sep])
                simpa [List.append_assoc] using hund
              exact hns (hpre.subset (by simp))
            · exact absurd hnil (by simp)
            · exfalso
              obtain ⟨c, m', rfl⟩ := List.exists_cons_of_ne_nil hne
              have hc : c = sep := hsep c (by simp)
              exact hns (hc ▸ List.mem_cons_self c m')
        · rintro (⟨hmem, hdig⟩ | rfl)
          · refine ⟨?_, hdig⟩
            rw [mem_listdirFS] at hmem ⊢
            obtain ⟨hpe, hne, hns⟩ := hmem
            refine ⟨?_, hne, hns⟩
            apply copyPhase_mono
            rw [hpofs]
            exact (pathExists_putEntry _ _ _ _).mpr
              (Or.inr (pathExists_fs3_mono dev fs0 stamp _ hpe))
          · refine ⟨?_, pyStrIsDigit_of m htne htdig⟩
            rw [mem_listdirFS]
            refine ⟨?_, htne, digits_no_sep m htdig⟩
            apply copyPhase_mono
            rw [hpofs]
            exact (pathExists_putEntry _ _ _ _).mpr (Or.inl htarget.symm)

/-- Device of the C4 witness. -/
def c4dev : Device := {
  name := [ 'x'], dtype := [ 'h', 'd', 'd'], path := [ '/', 'd'],
  working_folder := [ 'w'], free_space_threshold_gb := 1,
  sources := [{ path := [ '/', 'q'], ignore := [], tree := some (FSTree.file {}) }] }

/-- Closed witness instantiating `target_folder_exclusive` at a concrete
device and date stamp. -/
theorem target_folder_exclusive_witness :
    (pathExists [] (pathJoin (wfOf c4dev) [ '2', '0']) = true →
      ∃ r fsA, deviceRun [] [ '2', '0'] [ 's'] 2 c4dev [] = Except.error (r, fsA) ∧
        fsFind fsA (pathJoin (wfOf c4dev) [ '2', '0']) =
          fsFind [] (pathJoin (wfOf c4dev) [ '2', '0'])) ∧
    (∀ out, deviceRun [] [ '2', '0'] [ 's'] 2 c4dev [] = Except.ok (some out) →
      pathExists [] (pathJoin (wfOf c4dev) [ '2', '0']) = false ∧
      out.target = pathJoin (wfOf c4dev) [ '2', '0'] ∧
      (∀ m, (m ∈ listdirFS out.fs (wfOf c4dev) ∧ pyStrIsDigit m = true) ↔
        ((m ∈ listdirFS [] (wfOf c4dev) ∧ pyStrIsDigit m = true) ∨ m = [ '2', '0']))) :=
  target_folder_exclusive [] [ '2', '0'] [ 's'] 2 c4dev []
    (by decide) (by decide) (by decide) (by decide) (by decide) (by decide)

/-! ### Claim C10 — the in-progress generation is outside its own chain -/

/-- Claim C10: the generation list consulted by `do_copy` is computed before
the target generation folder is created, so on a completed run the current
date stamp is not among the consulted generations, and no prior-version
lookup — over any filesystem state, in particular every intermediate state
of the run — can resolve to a path at or below the in-progress generation
folder. -/
theorem in_progress_not_consulted (cfgIgnore : List (List Char)) (today stamp : List Char)
    (freeGb : ℚ) (dev : Device) (fs0 : FS)
    (hty : dev.dtype ≠ notSupportedName)
    (hwfne : wfOf dev ≠ []) (hwflast : (wfOf dev).getLast? ≠ some sep)
    (htdig : ∀ c ∈ today, pyIsDigitChar c = true)
    (hstamp : stamp.head? ≠ some sep) :
    ∀ out, deviceRun cfgIgnore today stamp freeGb dev fs0 = Except.ok (some out) →
      today ∉ out.prev ∧
      ∀ fsx src pv, findPrev fsx out.wf out.prev src = some pv →
        ¬ underPath out.target pv := by
  intro out h
  rw [deviceRun_eq, if_neg hty] at h
  cases hpf : preflight today stamp freeGb dev fs0 with
  | error e =>
    rw [hpf] at h
    simp at h
  | ok po =>
    rw [hpf] at h
    simp only [Except.ok.injEq, Option.some.injEq] at h
    obtain ⟨hgt, hpofs, hpowf, hpotgt, hpoprev, htgtabs⟩ :=
      preflight_ok_gt today stamp freeGb dev fs0 po hpf
    subst h
    have htarget : pathJoin (wfOf dev) today = wfOf dev ++ sep :: today :=
      pathJoin_normal _ _ (digits_head_ne_sep today htdig) hwfne hwflast
    have hnotin : today ∉ po.prev := by
      intro hmem
      rw [hpoprev] at hmem
      obtain ⟨hpe, -, -⟩ := mem_prev_backups_aux _ _ _ hmem
      rw [← htarget, htgtabs] at hpe
      exact Bool.noConfusion hpe
    refine ⟨hnotin, ?_⟩
    show ∀ fsx src pv, findPrev fsx po.wf po.prev src = some pv → ¬ underPath po.target pv
    intro fsx src pv hfind
    unfold findPrev at hfind
    cases hfb : po.prev.find? (fun b => pathExists fsx (lookup_path po.wf b src)) with
    | none =>
      rw [hfb] at hfind
      simp at hfind
    | some b =>
      rw [hfb] at hfind
      have hpv : pv = lookup_path po.wf b src := by
        simpa using hfind.symm
      have hbmem : b ∈ po.prev := List.mem_of_find?_eq_some hfb
      have hbmem3 : b ∈ prev_backups (fs3Of dev fs0 stamp) (wfOf dev) := by
        rw [← hpoprev]
        exact hbmem
      obtain ⟨-, hbne, hbns⟩ := mem_prev_backups_aux _ _ _ hbmem3
      have hbtoday : b ≠ today := fun he => hnotin (he ▸ hbmem)
      rw [hpotgt, htarget, hpv, hpowf]
      have hform : lookup_path (wfOf dev) b src =
          wfOf dev ++ sep :: (b ++ sep :: mapPath src) := rfl
      rw [hform]
      apply not_underPath_sibling (wfOf dev) today b _ (digits_no_sep today htdig) hbns hbtoday
      right
      exact ⟨mapPath src, by simp⟩

instance : Inhabited RunOutput := ⟨⟨[], [], [], [], []⟩⟩

/-- Device of the C10 witness. -/
def c10dev : Device := {
  name := [ 'x'], dtype := [ 'h', 'd', 'd'], path := [ '/', 'd'],
  working_folder := [ 'w'], free_space_threshold_gb := 1,
  sources := [{ path := [ '/', 'q'], ignore := [], tree := some (FSTree.file {}) }] }

/-- Initial filesystem of the C10 witness: one prior generation `10`
containing the mapped source path. -/
def c10fs0 : FS :=
  [([ '/', 'd', '/', 'w', '/', '1', '0', '/', 'q'], {}),
   ([ '/', 'd', '/', 'w', '/', '1', '0'], dirEntry),
   ([ '/', 'd', '/', 'w'], dirEntry),
   ([ '/', 'd'], dirEntry)]

/-- The completed run of the C10 witness. -/
def c10out : RunOutput :=
  match deviceRun [] [ '2', '0'] [ 's'] 2 c10dev c10fs0 with
  | Except.ok (some o) => o
  | _ => default

/-- Closed witness instantiating `in_progress_not_consulted` on a completed
concrete run with one prior generation. -/
theorem in_progress_not_consulted_witness :
    [ '2', '0'] ∉ c10out.prev ∧
    ∀ fsx src pv, findPrev fsx c10out.wf c10out.prev src = some pv →
      ¬ underPath c10out.target pv :=
  in_progress_not_consulted [] [ '2', '0'] [ 's'] 2 c10dev c10fs0
    (by decide) (by decide) (by decide) (by decide) (by decide) c10out rfl

end Backup
